import Mathlib

/-!
Verification of the Pynguin core substrate: the accessible-object model
(pynguin/utils/generic/genericaccessibleobject.py), the syntax-tree
mutation substrate (pynguin/assertion/mutation_analysis/utils.py), and
the ordered-set container.  Python classes are embedded as Lean
inductives/structures; Python object identity, where it matters (the
AST annotation pass), is made explicit through node identifiers or a
small heap model.
-/

set_option maxHeartbeats 1000000
set_option maxRecDepth 4000

namespace Pynguin

/-! ## Ordered set

Modelled from the spec: the file pynguin/utils/orderedset.py is not part
of the sources at hand (only its tests are), so the container follows
the spec, section 4.2: an insertion-order-preserving unique sequence;
union keeps the left operand's elements in order and then appends the
right operand's elements not already present, in their order;
intersection keeps the left operand's elements, in order, that are also
present in the right operand; equality is order-sensitive. -/

structure OrderedSet (α : Type) where
  elems : List α
deriving DecidableEq

/-- Empty ordered set. -/
def OrderedSet.empty {α : Type} : OrderedSet α := ⟨[]⟩

/-- Append an element unless it is already present (insertion order kept). -/
def OrderedSet.add {α : Type} [DecidableEq α] (s : OrderedSet α) (x : α) :
    OrderedSet α :=
  if x ∈ s.elems then s else ⟨s.elems ++ [x]⟩

/-- Build an ordered set from a sequence, keeping first occurrences. -/
def OrderedSet.ofList {α : Type} [DecidableEq α] (l : List α) : OrderedSet α :=
  l.foldl OrderedSet.add OrderedSet.empty

/-- Membership test. -/
def OrderedSet.mem {α : Type} [DecidableEq α] (s : OrderedSet α) (x : α) : Bool :=
  x ∈ s.elems

/-- Union: left elements in order, then new right elements in order. -/
def OrderedSet.union {α : Type} [DecidableEq α] (a b : OrderedSet α) :
    OrderedSet α :=
  b.elems.foldl OrderedSet.add a

/-- Intersection: left elements, in order, that are present in the right. -/
def OrderedSet.inter {α : Type} [DecidableEq α] (a b : OrderedSet α) :
    OrderedSet α :=
  ⟨a.elems.filter (fun x => x ∈ b.elems)⟩

/-! ## External type-system collaborator

The type system (pynguin/analyses/typesystem.py) is an external
collaborator of the accessible-object model: the code under analysis
only stores and compares the descriptors it supplies.  A nominal type
descriptor (TypeInfo) and a callable handle are therefore embedded as
opaque identifiers with decidable equality, and ProperType keeps the
one constructor the accessible-object code itself builds, Instance. -/

/-- A nominal type descriptor supplied by the type system (opaque id). -/
abbrev TypeInfo := Nat

/-- A runtime callable handle (opaque identity, compared by reference). -/
abbrev PyCallable := Nat

/-- The types the accessible-object layer stores or constructs. -/
inductive ProperType where
  | Instance (owner : TypeInfo)
  | other (id : Nat)
deriving DecidableEq

/-- Inferred signature of a callable, supplied by the type system. -/
structure InferredSignature where
  return_type : ProperType
  original_parameters : List (String × ProperType)
deriving DecidableEq

/-- Caller-supplied memo for parameter-type queries, keyed by signature
identity; opaque to the accessible-object layer. -/
abbrev Memo := InferredSignature → Option (List (String × ProperType))

/-- Modelled from the spec: InferredSignature.get_parameter_types is part
of the external type system; it yields the parameter types of the
signature, consulting the caller's memo first. -/
def get_parameter_types (s : InferredSignature) (memo : Memo) :
    List ProperType :=
  ((memo s).getD s.original_parameters).map (fun p => p.2)

/-! ## Accessible objects

One inductive covers the closed class hierarchy of
genericaccessibleobject.py.  GenericConstructor's callable is
owner.raw_type.__init__, fully determined by the owner, so it is not a
separate field.  GenericEnum's cached name list is derived from the
owner's raw type and plays no role in equality, hashing or
dependencies. -/

inductive GenericAccessibleObject where
  | GenericEnum (owner : TypeInfo)
  | GenericConstructor (owner : TypeInfo) (inferred_signature : InferredSignature)
      (raised_exceptions : List String)
  | GenericMethod (owner : TypeInfo) (callable : PyCallable)
      (inferred_signature : InferredSignature) (raised_exceptions : List String)
      (method_name : Option String)
  | GenericFunction (callable : PyCallable) (inferred_signature : InferredSignature)
      (raised_exceptions : List String) (function_name : Option String)
  | GenericField (owner : TypeInfo) (field : String) (field_type : ProperType)
  | GenericStaticField (owner : TypeInfo) (field : String) (field_type : ProperType)
  | GenericStaticModuleField (module : String) (field : String)
      (field_type : ProperType)
deriving DecidableEq

/-- The __eq__ methods of the hierarchy: each variant first requires the
other object to be an instance of the same concrete class (an object of
another class compares unequal), then compares the variant's identity
data: owner for enums and constructors, the underlying callable for
methods and functions, the (owner, field) pair for fields and static
fields, and the (module, field) pair for module fields. -/
def gao_eq : GenericAccessibleObject → GenericAccessibleObject → Bool
  | .GenericEnum o, .GenericEnum o2 => o == o2
  | .GenericConstructor o _ _, .GenericConstructor o2 _ _ => o == o2
  | .GenericMethod _ c _ _ _, .GenericMethod _ c2 _ _ _ => c == c2
  | .GenericFunction c _ _ _, .GenericFunction c2 _ _ _ => c == c2
  | .GenericField o f _, .GenericField o2 f2 _ => o == o2 && f == f2
  | .GenericStaticField o f _, .GenericStaticField o2 f2 _ => o == o2 && f == f2
  | .GenericStaticModuleField m f _, .GenericStaticModuleField m2 f2 _ =>
      m == m2 && f == f2
  | _, _ => false

/-- Model of Python's opaque string hash. -/
def pyHashString (s : String) : Nat :=
  s.foldl (fun a c => a * 31 + c.toNat) 17

/-- Model of Python's hash of a two-tuple of hashable values. -/
def pyHashPair (a b : Nat) : Nat := Nat.pair a b

/-- Model of hashing a TypeInfo descriptor. -/
def pyHashTypeInfo (t : TypeInfo) : Nat := t

/-- Model of hashing a callable handle. -/
def pyHashCallable (c : PyCallable) : Nat := c

/-- The __hash__ methods of the hierarchy: hash(owner) for enums and
constructors, hash(callable) for methods and functions,
hash((owner, field)) for fields and static fields, and
hash((module, field)) for module fields. -/
def gao_hash : GenericAccessibleObject → Nat
  | .GenericEnum o => pyHashTypeInfo o
  | .GenericConstructor o _ _ => pyHashTypeInfo o
  | .GenericMethod _ c _ _ _ => pyHashCallable c
  | .GenericFunction c _ _ _ => pyHashCallable c
  | .GenericField o f _ => pyHashPair (pyHashTypeInfo o) (pyHashString f)
  | .GenericStaticField o f _ => pyHashPair (pyHashTypeInfo o) (pyHashString f)
  | .GenericStaticModuleField m f _ => pyHashPair (pyHashString m) (pyHashString f)

/-- Concrete class of an accessible object, as tested by isinstance. -/
def gao_variant : GenericAccessibleObject → Nat
  | .GenericEnum _ => 0
  | .GenericConstructor _ _ _ => 1
  | .GenericMethod _ _ _ _ _ => 2
  | .GenericFunction _ _ _ _ => 3
  | .GenericField _ _ _ => 4
  | .GenericStaticField _ _ _ => 5
  | .GenericStaticModuleField _ _ _ => 6

/-- The get_dependencies methods: empty for enums, static fields and
module fields; the signature's parameter types for constructors and
functions; parameter types plus Instance(owner) for methods; the
singleton Instance(owner) for instance fields. -/
def get_dependencies (g : GenericAccessibleObject) (memo : Memo) :
    OrderedSet ProperType :=
  match g with
  | .GenericEnum _ => OrderedSet.empty
  | .GenericConstructor _ s _ => OrderedSet.ofList (get_parameter_types s memo)
  | .GenericMethod o _ s _ _ =>
      (OrderedSet.ofList (get_parameter_types s memo)).add (.Instance o)
  | .GenericFunction _ s _ _ => OrderedSet.ofList (get_parameter_types s memo)
  | .GenericField o _ _ => (OrderedSet.empty).add (.Instance o)
  | .GenericStaticField _ _ _ => OrderedSet.empty
  | .GenericStaticModuleField _ _ _ => OrderedSet.empty

/-! ### Assertion-guarded construction and queries

GenericField.__init__ and GenericStaticField.__init__ assert that the
owner is not None; GenericField.get_dependencies asserts the owner is
present, and GenericMethod.get_dependencies asserts it through the
owner property.  The owner slot of the underlying Python object is
optional, so these entry points take an optional owner and return none
exactly when the assertion fires. -/

/-- GenericField.__init__ with its owner assertion. -/
def GenericField_init (owner : Option TypeInfo) (field : String)
    (field_type : ProperType) : Option GenericAccessibleObject :=
  match owner with
  | some o => some (.GenericField o field field_type)
  | none => none

/-- GenericStaticField.__init__ with its owner assertion. -/
def GenericStaticField_init (owner : Option TypeInfo) (field : String)
    (field_type : ProperType) : Option GenericAccessibleObject :=
  match owner with
  | some o => some (.GenericStaticField o field field_type)
  | none => none

/-- GenericField.get_dependencies with its owner assertion. -/
def GenericField_get_dependencies (owner : Option TypeInfo) :
    Option (OrderedSet ProperType) :=
  match owner with
  | some o => some ((OrderedSet.empty).add (.Instance o))
  | none => none

/-- GenericMethod.get_dependencies with the owner assertion of the owner
property. -/
def GenericMethod_get_dependencies (owner : Option TypeInfo)
    (s : InferredSignature) (memo : Memo) : Option (OrderedSet ProperType) :=
  match owner with
  | some o => some ((OrderedSet.ofList (get_parameter_types s memo)).add (.Instance o))
  | none => none

/-! ## Random sampler

RandomSampler from mutation_analysis/utils.py.  The process-wide random
source is made explicit: is_mutation_time receives the integer that
random.randrange(100) returned, a uniform draw from [0, 100). -/

structure RandomSampler where
  percentage : Int
deriving DecidableEq

/-- RandomSampler.__init__: keep the percentage when it lies strictly
between 0 and 100, otherwise store 100. -/
def RandomSampler.make (percentage : Int) : RandomSampler :=
  ⟨if 0 < percentage ∧ percentage < 100 then percentage else 100⟩

/-- RandomSampler.is_mutation_time on a given draw of randrange(100). -/
def RandomSampler.is_mutation_time (s : RandomSampler) (draw : Nat) : Bool :=
  (draw : Int) < s.percentage

/-! ## Syntax trees

A parsed Python syntax tree, as traversed generically by
ast.NodeTransformer.generic_visit: every node is a constructor kind plus
the list of its AST-valued fields in field order.  Following the CPython
ast field layout: a Module node's fields are its body statements; a
FunctionDef node's fields are its arguments node followed by its body
statements; a (simple) ClassDef node's fields are its body statements;
an Expr node's field is its value; an Assign node's fields are its
targets followed by its value; an If node's fields are its test
followed by its body and orelse statements. -/

inductive Kind where
  | module
  | functionDef (name : String)
  | classDef (name : String)
  | exprStmt
  | assign
  | strLit (s : String)
  | nameExpr (id : String)
  | numLit (n : Int)
  | passStmt
  | argumentsNode
  | ifStmt
deriving DecidableEq

/-- A parse tree as returned by ast.parse, before annotation. -/
inductive PyAst where
  | node (kind : Kind) (fields : List PyAst)

mutual

/-- Decidable equality of parse trees. -/
def PyAst.decEqA : (a b : PyAst) → Decidable (a = b)
  | .node k fs, .node k2 fs2 =>
    if h : k = k2 then
      match PyAst.decEqL fs fs2 with
      | isTrue h2 => isTrue (by rw [h, h2])
      | isFalse h2 => isFalse (fun he => PyAst.noConfusion he (fun _ hf => h2 hf))
    else isFalse (fun he => PyAst.noConfusion he (fun hk _ => h hk))

/-- Decidable equality of parse forests. -/
def PyAst.decEqL : (a b : List PyAst) → Decidable (a = b)
  | [], [] => isTrue rfl
  | [], _ :: _ => isFalse (fun he => List.noConfusion he)
  | _ :: _, [] => isFalse (fun he => List.noConfusion he)
  | a :: as2, b :: bs =>
    match PyAst.decEqA a b, PyAst.decEqL as2 bs with
    | isTrue h1, isTrue h2 => isTrue (by rw [h1, h2])
    | isFalse h1, _ => isFalse (fun he => List.noConfusion he (fun hh _ => h1 hh))
    | _, isFalse h2 => isFalse (fun he => List.noConfusion he (fun _ ht => h2 ht))

end

instance : DecidableEq PyAst := PyAst.decEqA

/-- Annotation attributes attached by ParentNodeTransformer: the node's
identity (each node object of the produced tree is a distinct object,
since the transformer clones any node it meets a second time), its
parent attribute and its children attribute. -/
structure Ann where
  id : Nat
  parent : Option Nat
  children : Finset Nat
deriving DecidableEq

/-- A node of the annotated tree produced by ParentNodeTransformer. -/
inductive AnnAst where
  | node (ann : Ann) (kind : Kind) (fields : List AnnAst)

mutual

/-- Decidable equality of annotated trees. -/
def AnnAst.decEqA : (a b : AnnAst) → Decidable (a = b)
  | .node an k fs, .node an2 k2 fs2 =>
    if h0 : an = an2 then
      if h : k = k2 then
        match AnnAst.decEqL fs fs2 with
        | isTrue h2 => isTrue (by rw [h0, h, h2])
        | isFalse h2 => isFalse (fun he => AnnAst.noConfusion he (fun _ _ hf => h2 hf))
      else isFalse (fun he => AnnAst.noConfusion he (fun _ hk _ => h hk))
    else isFalse (fun he => AnnAst.noConfusion he (fun ha _ _ => h0 ha))

/-- Decidable equality of annotated forests. -/
def AnnAst.decEqL : (a b : List AnnAst) → Decidable (a = b)
  | [], [] => isTrue rfl
  | [], _ :: _ => isFalse (fun he => List.noConfusion he)
  | _ :: _, [] => isFalse (fun he => List.noConfusion he)
  | a :: as2, b :: bs =>
    match AnnAst.decEqA a b, AnnAst.decEqL as2 bs with
    | isTrue h1, isTrue h2 => isTrue (by rw [h1, h2])
    | isFalse h1, _ => isFalse (fun he => List.noConfusion he (fun hh _ => h1 hh))
    | _, isFalse h2 => isFalse (fun he => List.noConfusion he (fun _ ht => h2 ht))

end

instance : DecidableEq AnnAst := AnnAst.decEqA

/-- Annotation attributes of a node. -/
def AnnAst.ann : AnnAst → Ann
  | .node a _ _ => a

/-- Constructor kind of a node. -/
def AnnAst.kind : AnnAst → Kind
  | .node _ k _ => k

/-- AST-valued fields of a node, in field order. -/
def AnnAst.fields : AnnAst → List AnnAst
  | .node _ _ fs => fs

/-! ParentNodeTransformer.visit, embedded as a pure pass.

The transformer's state (the current ancestor self.parent, saved and
restored around the recursive generic_visit) becomes the parent
argument; the object identities of the produced nodes become
depth-first preorder numbers handed out by the fresh counter.  A node
first receives parent := the current ancestor and children := the empty
set; generic_visit then recurses into its fields with the node as the
new ancestor, and as each child returns it adds itself and its own
accumulated children set to the node's children attribute, so after the
pass the node's children set was built as the left fold of
insert-child-then-union-its-children over its fields. -/

mutual

def annotateA : PyAst → Option Nat → Nat → AnnAst × Nat
  | .node k fs, par, fresh =>
    let p := annotateL fs (some fresh) (fresh + 1)
    let ch := p.1.foldl (fun s c => (insert c.ann.id s) ∪ c.ann.children) ∅
    (.node ⟨fresh, par, ch⟩ k p.1, p.2)

def annotateL : List PyAst → Option Nat → Nat → List AnnAst × Nat
  | [], _, fresh => ([], fresh)
  | t :: ts, par, fresh =>
    let q := annotateA t par fresh
    let r := annotateL ts par q.2
    (q.1 :: r.1, r.2)

end

/-- create_ast: parse (the caller hands the parse tree) and annotate,
starting with no ancestor. -/
def create_ast (t : PyAst) : AnnAst :=
  (annotateA t none 0).1

/-! Recursive recomputations over annotated trees, used to state the
tree invariants independently of the pass that built them. -/

mutual

/-- Preorder list of the node identities of a tree. -/
def idsA : AnnAst → List Nat
  | .node a _ fs => a.id :: idsL fs

/-- Preorder list of the node identities of a forest. -/
def idsL : List AnnAst → List Nat
  | [] => []
  | c :: cs => idsA c ++ idsL cs

end

mutual

/-- The set of identities of all strict descendants of a node,
recomputed recursively: union over the immediate children of the child
itself plus the child's own descendant set. -/
def descSetA : AnnAst → Finset Nat
  | .node _ _ fs => descSetL fs

/-- Descendant-set recomputation over a forest. -/
def descSetL : List AnnAst → Finset Nat
  | [] => ∅
  | c :: cs => ((insert c.ann.id (descSetA c)) ∪ descSetL cs)

end

mutual

/-- All subtrees (node objects) of a tree, the tree itself included. -/
def subA : AnnAst → List AnnAst
  | .node a k fs => .node a k fs :: subL fs

/-- All subtrees of a forest. -/
def subL : List AnnAst → List AnnAst
  | [] => []
  | c :: cs => subA c ++ subL cs

end

mutual

/-- Look a node up by identity (models following an object reference
into the annotated tree). -/
def findA : AnnAst → Nat → Option AnnAst
  | .node a k fs, i =>
    if a.id = i then some (.node a k fs) else findL fs i

/-- Identity lookup over a forest. -/
def findL : List AnnAst → Nat → Option AnnAst
  | [], _ => none
  | c :: cs, i =>
    match findA c i with
    | some r => some r
    | none => findL cs i

end

mutual

/-- Number of nodes of a parse tree. -/
def sizeA : PyAst → Nat
  | .node _ fs => 1 + sizeL fs

/-- Number of nodes of a parse forest. -/
def sizeL : List PyAst → Nat
  | [] => 0
  | t :: ts => sizeA t + sizeL ts

end

/-- Is this one of the kinds isinstance-tested against
(ast.FunctionDef, ast.ClassDef, ast.Module) in is_docstring? -/
def isDefKind : Kind → Bool
  | .module => true
  | .functionDef _ => true
  | .classDef _ => true
  | _ => false

/-- Is this a bare string-literal node (isinstance(node, ast.Str))? -/
def isStrKind : Kind → Bool
  | .strLit _ => true
  | _ => false

/-- The body field of a definition node, per the CPython field layout
recorded above: everything for Module and ClassDef, everything after
the arguments node for FunctionDef, nothing for other kinds. -/
def AnnAst.bodyOf : AnnAst → List AnnAst
  | .node _ .module fs => fs
  | .node _ (.functionDef _) fs => fs.drop 1
  | .node _ (.classDef _) fs => fs
  | _ => []

/-- is_docstring: the node must be a string literal; its parent
attribute, followed into the tree, must be an Expr node; that node's
own parent must be a FunctionDef, ClassDef or Module node with a
non-empty body whose first statement is (by object identity) that Expr
node.  The root parameter stands for the annotated tree inside which
parent references are resolved. -/
def is_docstring (root : AnnAst) (n : AnnAst) : Bool :=
  if isStrKind n.kind then
    match n.ann.parent with
    | none => false
    | some pid =>
      match findA root pid with
      | none => false
      | some e =>
        if e.kind == .exprStmt then
          match e.ann.parent with
          | none => false
          | some did =>
            match findA root did with
            | none => false
            | some d =>
              isDefKind d.kind && !d.bodyOf.isEmpty &&
                ((d.bodyOf.head?.map (fun x => x.ann.id)) == some e.ann.id)
        else false
  else false

/-- Positional docstring characterisation, recomputed from the tree
structure alone (no parent attributes): some definition node of the
tree has as the first statement of its body an expression statement
among whose fields the node literally sits, and the node is a string
literal. -/
def docstringPos (root : AnnAst) (n : AnnAst) : Bool :=
  (subA root).any (fun d =>
    isDefKind d.kind &&
      (match d.bodyOf.head? with
       | some e => e.kind == .exprStmt && decide (n ∈ e.fields) && isStrKind n.kind
       | none => false))

/-! ## Materialisation

create_module compiles a module tree and executes it in the namespace
of a fresh module object seeded with the caller's bindings.  The
compile and exec builtins belong to the Python runtime; they are
embedded here for the straight-line fragment the produced trees of the
claims use: a module body of literal assignments and pass statements.
Statements outside the fragment make the embedding return none. -/

inductive PyValue where
  | int (n : Int)
  | str (s : String)
deriving DecidableEq

/-- A namespace: the __dict__ of a module object. -/
abbrev Namespace := List (String × PyValue)

/-- Dictionary update: bind x to v, replacing any previous binding. -/
def nsSet (ns : Namespace) (x : String) (v : PyValue) : Namespace :=
  ns.filter (fun p => p.1 ≠ x) ++ [(x, v)]

/-- Dictionary lookup. -/
def nsGet (ns : Namespace) (x : String) : Option PyValue :=
  (ns.find? (fun p => p.1 == x)).map (fun p => p.2)

/-- A module object: its name and its namespace. -/
structure PyModule where
  name : String
  dict : Namespace
deriving DecidableEq

/-- Evaluate a literal expression node. -/
def evalLit : PyAst → Option PyValue
  | .node (.numLit n) _ => some (.int n)
  | .node (.strLit s) _ => some (.str s)
  | _ => none

/-- Execute one top-level statement of the fragment in a namespace. -/
def execStmt (ns : Namespace) : PyAst → Option Namespace
  | .node .assign [.node (.nameExpr x) [], v] => (evalLit v).map (nsSet ns x)
  | .node .passStmt _ => some ns
  | _ => none

/-- create_module: compile the module tree, create a module object of
the given name, update its namespace with the caller's bindings (an
absent or empty mapping contributes nothing), execute the compiled body
in that namespace, and return the module object. -/
def create_module (ast_node : PyAst) (module_name : String)
    (module_dict : Option Namespace) : Option PyModule :=
  match ast_node with
  | .node .module body =>
      (body.foldlM execStmt (module_dict.getD [])).map
        (fun d => ⟨module_name, d⟩)
  | _ => none

/-- The value of the last executed top-level assignment of x in a body
of the fragment, if any (the recomputation the claim compares the final
namespace against). -/
def lastAssigned : List PyAst → String → Option PyValue
  | [], _ => none
  | st :: rest, x =>
    match lastAssigned rest x with
    | some v => some v
    | none =>
      match st with
      | .node .assign [.node (.nameExpr y) [], v] =>
          if y = x then evalLit v else none
      | _ => none

/-! ## Object-level model of the annotation traversal

The pure pass above cannot express the aliasing the parser may perform
(the same node object placed at several tree positions), which is what
the clone branch of ParentNodeTransformer.visit exists for.  This model
makes object identity explicit: a heap maps object identifiers to node
objects whose AST-valued fields are identifiers (and may alias), and
whose parent, children and lineno attributes are optional (absent until
set, respectively deleted).  visit is re-traced on this heap with a
fuel bound for the recursion. -/

/-- A Python AST node object: constructor kind, AST-valued fields as
object references, the optional parent / children annotation
attributes, and the four cached source-location attributes a parsed
node carries (lineno, col_offset, end_lineno, end_col_offset); none
means the attribute is absent.  copy.copy preserves every attribute,
and the clone branch of visit then deletes only lineno, so the other
three location attributes stay on a clone. -/
structure Obj where
  kind : Kind
  fields : List Nat
  parentAttr : Option (Option Nat)
  childrenAttr : Option (Finset Nat)
  lineno : Option Nat
  col_offset : Option Nat
  end_lineno : Option Nat
  end_col_offset : Option Nat
deriving DecidableEq

/-- The attributes of a node object that no traversal step rewrites
after the node was annotated, parent attribute excepted: its kind and
its four cached location attributes (proof infrastructure). -/
def Obj.core (o : Obj) :
    Kind × Option Nat × Option Nat × Option Nat × Option Nat :=
  (o.kind, o.lineno, o.col_offset, o.end_lineno, o.end_col_offset)

/-- Core attributes together with the parent attribute (proof
infrastructure). -/
def Obj.stable (o : Obj) :
    (Kind × Option Nat × Option Nat × Option Nat × Option Nat) ×
      Option (Option Nat) :=
  (o.core, o.parentAttr)

/-- A heap of node objects and the next unused object identifier. -/
structure Heap where
  objs : List (Nat × Obj)
  next : Nat
deriving DecidableEq

/-- Look an object identifier up in an association list. -/
def lookupObj : List (Nat × Obj) → Nat → Option Obj
  | [], _ => none
  | p :: ps, i => if p.1 = i then some p.2 else lookupObj ps i

/-- Dereference an object identifier. -/
def Heap.find (h : Heap) (i : Nat) : Option Obj :=
  lookupObj h.objs i

/-- Overwrite the object stored under an existing identifier. -/
def Heap.set (h : Heap) (i : Nat) (o : Obj) : Heap :=
  ⟨h.objs.map (fun p => if p.1 = i then (i, o) else p), h.next⟩

/-- Allocate a fresh object (copy.copy creating a new object). -/
def Heap.alloc (h : Heap) (o : Obj) : Heap × Nat :=
  (⟨(h.next, o) :: h.objs, h.next + 1⟩, h.next)

/-- Heap well-formedness: every stored identifier is below next. -/
def Heap.wfb (h : Heap) : Bool :=
  h.objs.all (fun p => p.1 < h.next)

/-- The clone branch of visit: a node that already has a parent
attribute was already annotated at another tree position, so it is
shallow-copied (a fresh object with the same attribute values) and the
cached lineno metadata of the copy is deleted; otherwise the node is
used as is. -/
def cloneIfAnnotated (h : Heap) (nid : Nat) (obj0 : Obj) : Heap × Nat × Obj :=
  if obj0.parentAttr.isSome then
    ((h.alloc { obj0 with lineno := none }).1, h.next, { obj0 with lineno := none })
  else (h, nid, obj0)

/-- Write the transformed field list back into a node (generic_visit
replaces each AST-valued field with the node returned for it). -/
def setFields (h : Heap) (i : Nat) (fs : List Nat) : Option Heap :=
  match h.find i with
  | some o => some (h.set i { o with fields := fs })
  | none => none

/-- The post-traversal step of visit: if there is a current ancestor,
add the node and the node's accumulated children set to the ancestor's
children set. -/
def addToParentChildren (h : Heap) (par : Option Nat) (nid1 : Nat) :
    Option Heap :=
  match par with
  | none => some h
  | some p =>
    match h.find p, h.find nid1 with
    | some pobj, some nobj =>
      match pobj.childrenAttr, nobj.childrenAttr with
      | some pc, some nc =>
          some (h.set p { pobj with childrenAttr := some ((insert nid1 pc) ∪ nc) })
      | _, _ => none
    | _, _ => none

mutual

/-- ParentNodeTransformer.visit on the heap: clone if already
annotated, set parent to the current ancestor and children to the empty
set, recurse into the fields with the node as ancestor (replacing each
field with the returned node), then register the node and its children
in the ancestor's children set.  Returns the heap and the node
(possibly the clone) that now stands at this tree position. -/
def visitH : Nat → Heap → Option Nat → Nat → Option (Heap × Nat)
  | 0, _, _, _ => none
  | fuel + 1, h, par, nid =>
    match h.find nid with
    | none => none
    | some obj0 =>
      match cloneIfAnnotated h nid obj0 with
      | (h1, nid1, obj1) =>
        match
          visitFieldsH fuel
            (h1.set nid1
              { obj1 with parentAttr := some par,
                          childrenAttr := some (∅ : Finset Nat) })
            nid1 obj1.fields with
        | none => none
        | some (h3, newFields) =>
          match setFields h3 nid1 newFields with
          | none => none
          | some h4 =>
            match addToParentChildren h4 par nid1 with
            | none => none
            | some h5 => some (h5, nid1)

/-- generic_visit over the AST-valued fields of a node: visit each
field with the node as the current ancestor and collect the returned
nodes in order (the fuel bound is consumed along the field list as
well, keeping the recursion structural). -/
def visitFieldsH : Nat → Heap → Nat → List Nat → Option (Heap × List Nat)
  | 0, _, _, _ => none
  | _ + 1, h, _, [] => some (h, [])
  | fuel + 1, h, p, c :: cs =>
    match visitH fuel h (some p) c with
    | none => none
    | some (h2, c2) =>
      match visitFieldsH fuel h2 p cs with
      | none => none
      | some (h3, cs2) => some (h3, c2 :: cs2)

end

/-- Canonical identity key of an accessible object: the concrete class
tag plus exactly the data that class's __eq__ compares (proof
infrastructure for the equality laws). -/
def gao_key : GenericAccessibleObject → Nat × Nat × String × String
  | .GenericEnum o => (0, o, "", "")
  | .GenericConstructor o _ _ => (1, o, "", "")
  | .GenericMethod _ c _ _ _ => (2, c, "", "")
  | .GenericFunction c _ _ _ => (3, c, "", "")
  | .GenericField o f _ => (4, o, f, "")
  | .GenericStaticField o f _ => (5, o, f, "")
  | .GenericStaticModuleField m f _ => (6, 0, m, f)

/-- Hash of an accessible object as a function of its identity key. -/
def keyHash (q : Nat × Nat × String × String) : Nat :=
  if q.1 ≤ 3 then q.2.1
  else if q.1 ≤ 5 then pyHashPair q.2.1 (pyHashString q.2.2.1)
  else pyHashPair (pyHashString q.2.2.1) (pyHashString q.2.2.2)

/-- Frame property relating the heap before and after a traversal step
(proof infrastructure): well-formedness is kept, the object counter
grows, every pre-existing object keeps its kind and its cached location
attributes — and, once its parent attribute has been set, that too —
every identifier unused below the old counter stays unused, and every
object living at or above the old counter carries no lineno (all
objects created during traversal are clones whose lineno was
deleted). -/
def HeapFrame (h h2 : Heap) : Prop :=
  h2.wfb = true ∧ h.next ≤ h2.next ∧
  (∀ i o, i < h.next → h.find i = some o →
    ∃ o2, h2.find i = some o2 ∧ o2.core = o.core ∧
      (o.parentAttr.isSome = true → o2.parentAttr = o.parentAttr)) ∧
  (∀ i, i < h.next → h.find i = none → h2.find i = none) ∧
  (∀ i o2, h.next ≤ i → h2.find i = some o2 → o2.lineno = none)

/-- The end-to-end example source of the spec: a module whose first
statement is a bare string-literal expression statement and whose
second statement is a function definition with a pass body. -/
def exampleSrc : PyAst :=
  .node .module
    [.node .exprStmt [.node (.strLit "doc") []],
     .node (.functionDef "f") [.node .argumentsNode [], .node .passStmt []]]

/-! # Theorems -/

theorem gao_eq_eq_key (a b : GenericAccessibleObject) :
    gao_eq a b = decide (gao_key a = gao_key b) := by
  cases a <;> cases b <;> rw [Bool.eq_iff_iff] <;> simp [gao_eq, gao_key]

theorem gao_hash_eq_keyHash (a : GenericAccessibleObject) :
    gao_hash a = keyHash (gao_key a) := by
  cases a <;> rfl

/-- C1: equality on AccessibleObject variants is reflexive, symmetric,
transitive and hash-consistent, and follows the per-variant rules: two
enums or two constructors are equal iff they have the same owner
(whatever their signatures), two methods or two functions are equal iff
they wrap the same underlying callable (whatever their signatures or
names), two fields or two static fields are equal iff they agree on the
(owner, field-name) pair, and two module fields are equal iff they
agree on the (module-name, field-name) pair. -/
theorem gao_eq_equivalence_and_hash :
    (∀ a : GenericAccessibleObject, gao_eq a a = true) ∧
    (∀ a b : GenericAccessibleObject, gao_eq a b = gao_eq b a) ∧
    (∀ a b c : GenericAccessibleObject,
      gao_eq a b = true → gao_eq b c = true → gao_eq a c = true) ∧
    (∀ a b : GenericAccessibleObject,
      gao_eq a b = true → gao_hash a = gao_hash b) ∧
    (∀ o o2, gao_eq (.GenericEnum o) (.GenericEnum o2) = true ↔ o = o2) ∧
    (∀ o o2 s s2 r r2,
      gao_eq (.GenericConstructor o s r) (.GenericConstructor o2 s2 r2) = true ↔
        o = o2) ∧
    (∀ o o2 c c2 s s2 r r2 n n2,
      gao_eq (.GenericMethod o c s r n) (.GenericMethod o2 c2 s2 r2 n2) = true ↔
        c = c2) ∧
    (∀ c c2 s s2 r r2 n n2,
      gao_eq (.GenericFunction c s r n) (.GenericFunction c2 s2 r2 n2) = true ↔
        c = c2) ∧
    (∀ o o2 f f2 t t2,
      gao_eq (.GenericField o f t) (.GenericField o2 f2 t2) = true ↔
        (o = o2 ∧ f = f2)) ∧
    (∀ o o2 f f2 t t2,
      gao_eq (.GenericStaticField o f t) (.GenericStaticField o2 f2 t2) = true ↔
        (o = o2 ∧ f = f2)) ∧
    (∀ m m2 f f2 t t2,
      gao_eq (.GenericStaticModuleField m f t)
          (.GenericStaticModuleField m2 f2 t2) = true ↔
        (m = m2 ∧ f = f2)) := by
  refine ⟨?_, ?_, ?_, ?_, ?_, ?_, ?_, ?_, ?_, ?_, ?_⟩
  · intro a; rw [gao_eq_eq_key]; simp
  · intro a b; rw [gao_eq_eq_key, gao_eq_eq_key]
    exact decide_eq_decide.mpr eq_comm
  · intro a b c h1 h2
    rw [gao_eq_eq_key] at h1 h2 ⊢
    simp only [decide_eq_true_eq] at h1 h2 ⊢
    exact h1.trans h2
  · intro a b h
    rw [gao_eq_eq_key] at h
    simp only [decide_eq_true_eq] at h
    rw [gao_hash_eq_keyHash, gao_hash_eq_keyHash, h]
  · intro o o2; simp [gao_eq]
  · intro o o2 s s2 r r2; simp [gao_eq]
  · intro o o2 c c2 s s2 r r2 n n2; simp [gao_eq]
  · intro c c2 s s2 r r2 n n2; simp [gao_eq]
  · intro o o2 f f2 t t2; simp [gao_eq]
  · intro o o2 f f2 t t2; simp [gao_eq]
  · intro m m2 f f2 t t2; simp [gao_eq]

theorem gao_eq_equivalence_and_hash_witness :
    gao_eq (.GenericMethod 0 7 ⟨.other 0, []⟩ [] none)
        (.GenericMethod 1 7 ⟨.other 1, [("x", .other 2)]⟩ ["E"] (some "m")) =
      true ∧
    gao_hash (.GenericMethod 0 7 ⟨.other 0, []⟩ [] none) =
      gao_hash (.GenericMethod 1 7 ⟨.other 1, [("x", .other 2)]⟩ ["E"] (some "m")) ∧
    gao_eq (.GenericEnum 4) (.GenericEnum 4) = true := by
  have h := gao_eq_equivalence_and_hash
  refine ⟨?_, ?_, ?_⟩
  · exact (h.2.2.2.2.2.2.1 0 1 7 7 ⟨.other 0, []⟩ ⟨.other 1, [("x", .other 2)]⟩
      [] ["E"] none (some "m")).mpr rfl
  · exact h.2.2.2.1 _ _ (by decide)
  · exact h.2.2.1 (.GenericEnum 4) (.GenericEnum 4) (.GenericEnum 4)
      (by decide) (by decide)

/-- C10: accessible objects of different concrete variants are never
equal (each __eq__ first requires the other object to be an instance of
the same concrete class); in particular a Field and a StaticField with
identical owner and field name compare unequal in both directions, even
though their hash values coincide. -/
theorem cross_variant_never_equal :
    (∀ a b : GenericAccessibleObject,
      gao_variant a ≠ gao_variant b → gao_eq a b = false) ∧
    (∀ (o : TypeInfo) (f : String) (t t2 : ProperType),
      gao_eq (.GenericField o f t) (.GenericStaticField o f t2) = false ∧
      gao_eq (.GenericStaticField o f t) (.GenericField o f t2) = false ∧
      gao_hash (.GenericField o f t) = gao_hash (.GenericStaticField o f t2)) := by
  constructor
  · intro a b hv
    cases a <;> cases b <;> first | rfl | exact absurd rfl hv
  · intro o f t t2; exact ⟨rfl, rfl, rfl⟩

theorem cross_variant_never_equal_witness :
    gao_eq (.GenericField 3 "f" (.other 0)) (.GenericStaticField 3 "f" (.other 1)) =
      false ∧
    gao_hash (.GenericField 3 "f" (.other 0)) =
      gao_hash (.GenericStaticField 3 "f" (.other 1)) := by
  have h := cross_variant_never_equal
  exact ⟨h.1 _ _ (by decide), (h.2 3 "f" (.other 0) (.other 1)).2.2⟩

/-- C5: get_dependencies of an Enum, StaticField or ModuleField is the
empty set for every memo; get_dependencies of an instance Field is the
single-element set holding exactly the instance type of its owner. -/
theorem get_dependencies_per_variant :
    ∀ (memo : Memo) (o : TypeInfo) (f m : String) (t : ProperType),
      get_dependencies (.GenericEnum o) memo = OrderedSet.empty ∧
      get_dependencies (.GenericStaticField o f t) memo = OrderedSet.empty ∧
      get_dependencies (.GenericStaticModuleField m f t) memo = OrderedSet.empty ∧
      (get_dependencies (.GenericField o f t) memo).elems =
        [ProperType.Instance o] := by
  intro memo o f m t
  refine ⟨rfl, rfl, rfl, ?_⟩
  simp [get_dependencies, OrderedSet.add, OrderedSet.empty]

/-- C7: constructing a Field or StaticField without an owner fails the
owner assertion, and get_dependencies of a Field or a Method with the
owner absent fails its assertion; with the owner present every one of
these assertion branches is unreachable and the operation succeeds. -/
theorem owner_assertions :
    ∀ (f : String) (ft : ProperType) (s : InferredSignature) (memo : Memo),
      GenericField_init none f ft = none ∧
      GenericStaticField_init none f ft = none ∧
      GenericField_get_dependencies none = none ∧
      GenericMethod_get_dependencies none s memo = none ∧
      (∀ o : TypeInfo,
        (GenericField_init (some o) f ft).isSome = true ∧
        (GenericStaticField_init (some o) f ft).isSome = true ∧
        (GenericField_get_dependencies (some o)).isSome = true ∧
        (GenericMethod_get_dependencies (some o) s memo).isSome = true) := by
  intro f ft s memo
  exact ⟨rfl, rfl, rfl, rfl, fun o => ⟨rfl, rfl, rfl, rfl⟩⟩

/-- C4: the constructor stores p when 0 < p < 100 and 100 otherwise, so
RandomSampler(0) and RandomSampler(150) equal RandomSampler(100);
is_mutation_time compares the uniform draw from randrange(100) against
the stored percentage and with a stored percentage of 100 it is true on
every possible draw. -/
theorem random_sampler_clamp_and_draw :
    ∀ (p : Int) (draw : Nat),
      (0 < p → p < 100 → (RandomSampler.make p).percentage = p) ∧
      (¬(0 < p ∧ p < 100) → (RandomSampler.make p).percentage = 100) ∧
      RandomSampler.make 0 = RandomSampler.make 100 ∧
      RandomSampler.make 150 = RandomSampler.make 100 ∧
      (∀ s : RandomSampler,
        s.is_mutation_time draw = decide ((draw : Int) < s.percentage)) ∧
      (draw < 100 → (RandomSampler.make 100).is_mutation_time draw = true) := by
  intro p draw
  refine ⟨?_, ?_, by decide, by decide, fun s => rfl, ?_⟩
  · intro h1 h2; simp [RandomSampler.make, h1, h2]
  · intro h; simp [RandomSampler.make, h]
  · intro h
    simp [RandomSampler.is_mutation_time, RandomSampler.make]
    omega

theorem random_sampler_clamp_and_draw_witness :
    (RandomSampler.make 50).percentage = 50 ∧
    (RandomSampler.make 150).percentage = 100 ∧
    (RandomSampler.make 100).is_mutation_time 99 = true := by
  have h1 := random_sampler_clamp_and_draw 50 99
  have h2 := random_sampler_clamp_and_draw 150 99
  exact ⟨h1.1 (by decide) (by decide), h2.2.1 (by decide),
    h1.2.2.2.2.2 (by decide)⟩

theorem OrderedSet.mem_add {α : Type} [DecidableEq α] (s : OrderedSet α)
    (y x : α) : x ∈ (s.add y).elems ↔ x ∈ s.elems ∨ x = y := by
  by_cases h : y ∈ s.elems
  · simp only [OrderedSet.add, if_pos h]
    exact ⟨Or.inl, fun hc => hc.elim id (fun he => he ▸ h)⟩
  · simp [OrderedSet.add, if_neg h]

theorem OrderedSet.mem_foldl_add {α : Type} [DecidableEq α] :
    ∀ (l : List α) (s : OrderedSet α) (x : α),
      x ∈ (l.foldl OrderedSet.add s).elems ↔ x ∈ s.elems ∨ x ∈ l := by
  intro l
  induction l with
  | nil => intro s x; simp
  | cons y ys ih =>
    intro s x
    rw [List.foldl_cons, ih, OrderedSet.mem_add]
    simp [List.mem_cons]
    tauto

theorem OrderedSet.mem_ofList {α : Type} [DecidableEq α] (l : List α) (x : α) :
    x ∈ (OrderedSet.ofList l).elems ↔ x ∈ l := by
  rw [OrderedSet.ofList, OrderedSet.mem_foldl_add]
  simp [OrderedSet.empty]

theorem OrderedSet.nodup_add {α : Type} [DecidableEq α] (s : OrderedSet α)
    (y : α) (h : s.elems.Nodup) : (s.add y).elems.Nodup := by
  by_cases hy : y ∈ s.elems
  · simpa [OrderedSet.add, hy]
  · simp only [OrderedSet.add, if_neg hy]
    rw [List.nodup_append]
    simp [h, hy]

theorem OrderedSet.nodup_foldl_add {α : Type} [DecidableEq α] :
    ∀ (l : List α) (s : OrderedSet α), s.elems.Nodup →
      (l.foldl OrderedSet.add s).elems.Nodup := by
  intro l
  induction l with
  | nil => intro s h; exact h
  | cons y ys ih =>
    intro s h
    exact ih _ (OrderedSet.nodup_add s y h)

theorem OrderedSet.nodup_ofList {α : Type} [DecidableEq α] (l : List α) :
    (OrderedSet.ofList l).elems.Nodup :=
  OrderedSet.nodup_foldl_add l OrderedSet.empty List.nodup_nil

theorem OrderedSet.foldl_add_eq_append {α : Type} [DecidableEq α] :
    ∀ (l : List α) (s : OrderedSet α), l.Nodup →
      (l.foldl OrderedSet.add s).elems =
        s.elems ++ l.filter (fun x => ¬ x ∈ s.elems) := by
  intro l
  induction l with
  | nil => intro s _; simp
  | cons y ys ih =>
    intro s h
    have hys : ys.Nodup := h.of_cons
    have hy : ¬ y ∈ ys := (List.nodup_cons.mp h).1
    rw [List.foldl_cons, ih _ hys]
    by_cases hmem : y ∈ s.elems
    · have hadd : (s.add y).elems = s.elems := by simp [OrderedSet.add, hmem]
      rw [hadd, List.filter_cons]
      simp [hmem]
    · have hadd : (s.add y).elems = s.elems ++ [y] := by
        simp [OrderedSet.add, hmem]
      rw [hadd, List.filter_cons]
      have hfy : ys.filter (fun x => ¬ x ∈ s.elems ++ [y]) =
          ys.filter (fun x => ¬ x ∈ s.elems) := by
        apply List.filter_congr
        intro x hx
        have hxy : x ≠ y := fun he => hy (he ▸ hx)
        simp [List.mem_append, hxy]
      rw [hfy]
      simp [hmem]

/-- C9: the union of two ordered sets lists the elements of the left
operand in their order followed by the right operand's elements not
already present, in their order (equivalently, it is the
first-occurrence deduplication of the concatenation); the intersection
lists the elements of the left operand, in the left operand's order,
that are also present in the right operand, and an element exclusive to
the right operand never appears; in particular the intersection of
OrderedSet [1, 2] and OrderedSet [2, 3] is OrderedSet [2]. -/
theorem orderedset_union_inter :
    (∀ {α : Type} [DecidableEq α] (a b : List α),
      (OrderedSet.union (OrderedSet.ofList a) (OrderedSet.ofList b)).elems =
        (OrderedSet.ofList a).elems ++
          (OrderedSet.ofList b).elems.filter
            (fun x => ¬ x ∈ (OrderedSet.ofList a).elems) ∧
      ((OrderedSet.inter (OrderedSet.ofList a) (OrderedSet.ofList b)).elems.Sublist
        (OrderedSet.ofList a).elems) ∧
      (∀ x, x ∈ (OrderedSet.union (OrderedSet.ofList a)
          (OrderedSet.ofList b)).elems ↔ (x ∈ a ∨ x ∈ b)) ∧
      (∀ x, x ∈ (OrderedSet.inter (OrderedSet.ofList a)
          (OrderedSet.ofList b)).elems ↔ (x ∈ a ∧ x ∈ b))) ∧
    OrderedSet.inter (OrderedSet.ofList [1, 2]) (OrderedSet.ofList [2, 3]) =
      OrderedSet.ofList ([2] : List Int) := by
  constructor
  · intro α inst a b
    have hu : (OrderedSet.union (OrderedSet.ofList a) (OrderedSet.ofList b)).elems =
        (OrderedSet.ofList a).elems ++
          (OrderedSet.ofList b).elems.filter
            (fun x => ¬ x ∈ (OrderedSet.ofList a).elems) := by
      rw [OrderedSet.union]
      exact OrderedSet.foldl_add_eq_append _ _ (OrderedSet.nodup_ofList b)
    refine ⟨hu, ?_, ?_, ?_⟩
    · exact List.filter_sublist _
    · intro x
      rw [hu, List.mem_append]
      constructor
      · rintro (hx | hx)
        · exact Or.inl ((OrderedSet.mem_ofList a x).mp hx)
        · exact Or.inr ((OrderedSet.mem_ofList b x).mp (List.mem_of_mem_filter hx))
      · intro hx
        by_cases hxa : x ∈ (OrderedSet.ofList a).elems
        · exact Or.inl hxa
        · refine Or.inr (List.mem_filter.mpr ⟨?_, ?_⟩)
          · cases hx with
            | inl h => exact absurd ((OrderedSet.mem_ofList a x).mpr h) hxa
            | inr h => exact (OrderedSet.mem_ofList b x).mpr h
          · simpa using hxa
    · intro x
      simp only [OrderedSet.inter, List.mem_filter]
      rw [OrderedSet.mem_ofList]
      simp [OrderedSet.mem_ofList]
  · decide

theorem find?_filter_of_imp {α : Type} (l : List α) (p q : α → Bool)
    (h : ∀ a, p a = true → q a = true) :
    (l.filter q).find? p = l.find? p := by
  induction l with
  | nil => rfl
  | cons a as ih =>
    by_cases hq : q a = true
    · rw [List.filter_cons_of_pos hq]
      by_cases hp : p a = true
      · rw [List.find?_cons_of_pos _ hp, List.find?_cons_of_pos _ hp]
      · rw [List.find?_cons_of_neg _ hp, List.find?_cons_of_neg _ hp]
        exact ih
    · rw [List.filter_cons_of_neg hq]
      have hp : ¬ p a = true := fun hpa => hq (h a hpa)
      rw [List.find?_cons_of_neg _ hp]
      exact ih

theorem nsGet_nsSet (ns : Namespace) (y : String) (v : PyValue) (x : String) :
    nsGet (nsSet ns y v) x = if x = y then some v else nsGet ns x := by
  unfold nsGet nsSet
  rw [List.find?_append]
  by_cases hxy : x = y
  · subst hxy
    have hnone : (ns.filter (fun p => p.1 ≠ x)).find? (fun p => p.1 == x) =
        none := by
      rw [List.find?_eq_none]
      intro p hp
      have h2 := (List.mem_filter.mp hp).2
      simp at h2 ⊢
      exact h2
    rw [hnone]
    simp
  · have hfind : (ns.filter (fun p => p.1 ≠ y)).find? (fun p => p.1 == x) =
        ns.find? (fun p => p.1 == x) := by
      apply find?_filter_of_imp
      intro a ha
      have h2 : a.1 = x := by simpa using ha
      simp [h2, hxy]
    rw [hfind]
    cases hf : ns.find? (fun p => p.1 == x) with
    | some r => simp [hxy]
    | none =>
      have hnx : ¬ (y == x) = true := by
        simp only [beq_iff_eq]
        exact fun he => hxy he.symm
      simp [hxy, hnx]

theorem exec_foldlM_lastAssigned :
    ∀ (body : List PyAst) (ns d : Namespace),
      body.foldlM execStmt ns = some d →
      ∀ x, nsGet d x =
        match lastAssigned body x with
        | some v => some v
        | none => nsGet ns x := by
  intro body
  induction body with
  | nil =>
    intro ns d h x
    simp only [List.foldlM_nil] at h
    cases h
    rfl
  | cons st rest ih =>
    intro ns d h x
    rw [List.foldlM_cons] at h
    cases hst : execStmt ns st with
    | none => rw [hst] at h; exact absurd h (by simp)
    | some ns2 =>
      rw [hst] at h
      simp only [Option.bind_eq_bind, Option.some_bind] at h
      have hres := ih ns2 d h x
      rw [hres]
      cases hla : lastAssigned rest x with
      | some v => simp [lastAssigned, hla]
      | none =>
        simp only [lastAssigned, hla]
        unfold execStmt at hst
        split at hst
        · rename_i y v
          cases hev : evalLit v with
          | none => rw [hev] at hst; exact absurd hst (by simp)
          | some w =>
            rw [hev] at hst
            simp only [Option.map_some'] at hst
            cases hst
            by_cases hyx : y = x
            · subst hyx
              simp [nsGet_nsSet, hev]
            · have hxy : ¬ x = y := fun h2 => hyx h2.symm
              simp [nsGet_nsSet, hxy, hyx]
        · cases hst
          rfl
        · exact absurd hst (by simp)

/-- C8: create_module compiles the module tree and executes it in a
fresh namespace seeded with the caller's optional initial bindings; the
returned module's namespace maps every name to the value of its last
top-level assignment, names the executed code never binds keep their
seeded value, and in particular a tree holding the single binding of a
numeral to x yields a namespace where x maps to that numeral. -/
theorem create_module_execs_bindings :
    (∀ (nm : String) (md : Option Namespace) (body : List PyAst) (m : PyModule),
      create_module (.node .module body) nm md = some m →
      m.name = nm ∧
      ∀ x, nsGet m.dict x =
        match lastAssigned body x with
        | some v => some v
        | none => nsGet (md.getD []) x) ∧
    (∀ (nm : String) (md : Option Namespace) (x : String) (n : Int),
      (create_module
          (.node .module [.node .assign [.node (.nameExpr x) [], .node (.numLit n) []]])
          nm md).map (fun m => nsGet m.dict x) = some (some (.int n))) := by
  constructor
  · intro nm md body m h
    simp only [create_module, Option.map_eq_some'] at h
    obtain ⟨dd, hdd, hm⟩ := h
    subst hm
    exact ⟨rfl, exec_foldlM_lastAssigned body _ dd hdd⟩
  · intro nm md x n
    simp only [create_module, List.foldlM_cons, List.foldlM_nil, execStmt, evalLit]
    simp [nsGet_nsSet]

theorem create_module_execs_bindings_witness :
    (⟨"mutant", [("y", PyValue.int 5), ("x", PyValue.int 1)]⟩ : PyModule).name =
      "mutant" ∧
    nsGet ([("y", PyValue.int 5), ("x", PyValue.int 1)] : Namespace) "x" =
      match lastAssigned
          [PyAst.node .assign [PyAst.node (.nameExpr "x") [], PyAst.node (.numLit 1) []]]
          "x" with
      | some v => some v
      | none => nsGet ((some [("y", PyValue.int 5)] : Option Namespace).getD []) "x" := by
  have h := create_module_execs_bindings.1 "mutant" (some [("y", PyValue.int 5)])
    [PyAst.node .assign [PyAst.node (.nameExpr "x") [], PyAst.node (.numLit 1) []]]
    ⟨"mutant", [("y", PyValue.int 5), ("x", PyValue.int 1)]⟩ (by rfl)
  exact ⟨h.1, h.2 "x"⟩

mutual

theorem annotateA_snd : ∀ (t : PyAst) (par : Option Nat) (fresh : Nat),
    (annotateA t par fresh).2 = fresh + sizeA t
  | .node k fs, par, fresh => by
    simp only [annotateA, sizeA]
    rw [annotateL_snd fs (some fresh) (fresh + 1)]
    omega

theorem annotateL_snd : ∀ (ts : List PyAst) (par : Option Nat) (fresh : Nat),
    (annotateL ts par fresh).2 = fresh + sizeL ts
  | [], _, fresh => by simp [annotateL, sizeL]
  | t :: ts, par, fresh => by
    simp only [annotateL, sizeL]
    rw [annotateA_snd t par fresh, annotateL_snd ts par (fresh + sizeA t)]
    omega

end

mutual

theorem annotateA_ids : ∀ (t : PyAst) (par : Option Nat) (fresh : Nat),
    idsA (annotateA t par fresh).1 = List.range' fresh (sizeA t)
  | .node k fs, par, fresh => by
    simp only [annotateA, idsA, sizeA]
    rw [annotateL_ids fs (some fresh) (fresh + 1)]
    rw [Nat.add_comm 1 (sizeL fs), List.range'_succ]

theorem annotateL_ids : ∀ (ts : List PyAst) (par : Option Nat) (fresh : Nat),
    idsL (annotateL ts par fresh).1 = List.range' fresh (sizeL ts)
  | [], _, fresh => by simp [annotateL, idsL, sizeL]
  | t :: ts, par, fresh => by
    simp only [annotateL, idsL, sizeL]
    rw [annotateA_ids t par fresh, annotateA_snd t par fresh,
      annotateL_ids ts par (fresh + sizeA t), List.range'_append_1,
      Nat.add_comm (sizeL ts) (sizeA t)]

end

theorem annotateA_ann_parent (t : PyAst) (par : Option Nat) (fresh : Nat) :
    (annotateA t par fresh).1.ann.parent = par := by
  cases t
  simp [annotateA, AnnAst.ann]

theorem annotateA_ann_id (t : PyAst) (par : Option Nat) (fresh : Nat) :
    (annotateA t par fresh).1.ann.id = fresh := by
  cases t
  simp [annotateA, AnnAst.ann]

theorem annotateL_roots_parent :
    ∀ (ts : List PyAst) (par : Option Nat) (fresh : Nat) (a : AnnAst),
      a ∈ (annotateL ts par fresh).1 → a.ann.parent = par
  | [], _, _, a => by simp [annotateL]
  | t :: ts, par, fresh, a => by
    intro ha
    simp only [annotateL, List.mem_cons] at ha
    cases ha with
    | inl h => rw [h]; exact annotateA_ann_parent t par fresh
    | inr h => exact annotateL_roots_parent ts par _ a h

theorem mem_subA_self (c : AnnAst) : c ∈ subA c := by
  cases c
  simp [subA]

theorem mem_subL_self :
    ∀ (cs : List AnnAst) (c : AnnAst), c ∈ cs → c ∈ subL cs
  | [], c => by simp
  | c2 :: cs, c => by
    intro hc
    simp only [subL, List.mem_append]
    cases List.mem_cons.mp hc with
    | inl h => exact Or.inl (h ▸ mem_subA_self c)
    | inr h => exact Or.inr (mem_subL_self cs c h)

mutual

theorem mem_idsA_of_mem_subA :
    ∀ (r sub : AnnAst), sub ∈ subA r → sub.ann.id ∈ idsA r
  | .node a k fs, sub => by
    intro hsub
    simp only [subA, List.mem_cons] at hsub
    simp only [idsA, List.mem_cons]
    cases hsub with
    | inl h => rw [h]; exact Or.inl rfl
    | inr h => exact Or.inr (mem_idsL_of_mem_subL fs sub h)

theorem mem_idsL_of_mem_subL :
    ∀ (cs : List AnnAst) (sub : AnnAst), sub ∈ subL cs → sub.ann.id ∈ idsL cs
  | [], sub => by simp [subL]
  | c :: cs, sub => by
    intro hsub
    simp only [subL, List.mem_append] at hsub
    simp only [idsL, List.mem_append]
    cases hsub with
    | inl h => exact Or.inl (mem_idsA_of_mem_subA c sub h)
    | inr h => exact Or.inr (mem_idsL_of_mem_subL cs sub h)

end

mutual

theorem findA_mem_id :
    ∀ (r : AnnAst) (i : Nat) (x : AnnAst),
      findA r i = some x → x ∈ subA r ∧ x.ann.id = i
  | .node a k fs, i, x => by
    intro hf
    simp only [findA] at hf
    by_cases hid : a.id = i
    · rw [if_pos hid] at hf
      cases hf
      exact ⟨mem_subA_self _, hid⟩
    · rw [if_neg hid] at hf
      have h2 := findL_mem_id fs i x hf
      exact ⟨by simp only [subA, List.mem_cons]; exact Or.inr h2.1, h2.2⟩

theorem findL_mem_id :
    ∀ (cs : List AnnAst) (i : Nat) (x : AnnAst),
      findL cs i = some x → x ∈ subL cs ∧ x.ann.id = i
  | [], i, x => by simp [findL]
  | c :: cs, i, x => by
    intro hf
    simp only [findL] at hf
    cases hfc : findA c i with
    | some r2 =>
      rw [hfc] at hf
      cases hf
      have h2 := findA_mem_id c i x hfc
      exact ⟨by simp only [subL, List.mem_append]; exact Or.inl h2.1, h2.2⟩
    | none =>
      rw [hfc] at hf
      have h2 := findL_mem_id cs i x hf
      exact ⟨by simp only [subL, List.mem_append]; exact Or.inr h2.1, h2.2⟩

end

mutual

theorem findA_of_mem_nodup :
    ∀ (r : AnnAst), (idsA r).Nodup →
      ∀ sub, sub ∈ subA r → findA r sub.ann.id = some sub
  | .node a k fs => by
    intro hnd sub hsub
    simp only [idsA, List.nodup_cons] at hnd
    simp only [subA, List.mem_cons] at hsub
    simp only [findA]
    cases hsub with
    | inl h =>
      subst h
      simp [AnnAst.ann]
    | inr h =>
      have hne : ¬ a.id = sub.ann.id := by
        intro he
        exact hnd.1 (he ▸ mem_idsL_of_mem_subL fs sub h)
      rw [if_neg hne]
      exact findL_of_mem_nodup fs hnd.2 sub h

theorem findL_of_mem_nodup :
    ∀ (cs : List AnnAst), (idsL cs).Nodup →
      ∀ sub, sub ∈ subL cs → findL cs sub.ann.id = some sub
  | [] => by simp [subL]
  | c :: cs => by
    intro hnd sub hsub
    simp only [idsL] at hnd
    have hnd1 := (List.nodup_append.mp hnd).1
    have hnd2 := (List.nodup_append.mp hnd).2.1
    have hdisj := (List.nodup_append.mp hnd).2.2
    simp only [subL, List.mem_append] at hsub
    simp only [findL]
    cases hsub with
    | inl h => rw [findA_of_mem_nodup c hnd1 sub h]
    | inr h =>
      have hnone : findA c sub.ann.id = none := by
        cases hfc : findA c sub.ann.id with
        | none => rfl
        | some x =>
          have h2 := findA_mem_id c sub.ann.id x hfc
          have h3 : sub.ann.id ∈ idsA c := h2.2 ▸ mem_idsA_of_mem_subA c x h2.1
          have h4 : sub.ann.id ∈ idsL cs := mem_idsL_of_mem_subL cs sub h
          exact absurd h4 (hdisj h3)
      rw [hnone]
      exact findL_of_mem_nodup cs hnd2 sub h

end

mutual

theorem mem_subA_trans :
    ∀ (r p c : AnnAst), p ∈ subA r → c ∈ p.fields → c ∈ subA r
  | .node a k fs, p, c => by
    intro hp hc
    simp only [subA, List.mem_cons] at hp ⊢
    cases hp with
    | inl h =>
      subst h
      exact Or.inr (mem_subL_self fs c hc)
    | inr h => exact Or.inr (mem_subL_trans fs p c h hc)

theorem mem_subL_trans :
    ∀ (cs : List AnnAst) (p c : AnnAst), p ∈ subL cs → c ∈ p.fields → c ∈ subL cs
  | [], p, c => by simp [subL]
  | c2 :: cs, p, c => by
    intro hp hc
    simp only [subL, List.mem_append] at hp ⊢
    cases hp with
    | inl h => exact Or.inl (mem_subA_trans c2 p c h hc)
    | inr h => exact Or.inr (mem_subL_trans cs p c h hc)

end

mutual

theorem mem_subA_cases :
    ∀ (r sub : AnnAst), sub ∈ subA r →
      sub = r ∨ ∃ p, p ∈ subA r ∧ sub ∈ p.fields
  | .node a k fs, sub => by
    intro hsub
    simp only [subA, List.mem_cons] at hsub
    cases hsub with
    | inl h => exact Or.inl h
    | inr h =>
      refine Or.inr ?_
      cases mem_subL_cases fs sub h with
      | inl h2 =>
        exact ⟨.node a k fs, mem_subA_self _, by simpa [AnnAst.fields] using h2⟩
      | inr h2 =>
        obtain ⟨p, hp, hsp⟩ := h2
        exact ⟨p, by simp only [subA, List.mem_cons]; exact Or.inr hp, hsp⟩

theorem mem_subL_cases :
    ∀ (cs : List AnnAst) (sub : AnnAst), sub ∈ subL cs →
      sub ∈ cs ∨ ∃ p, p ∈ subL cs ∧ sub ∈ p.fields
  | [], sub => by simp [subL]
  | c :: cs, sub => by
    intro hsub
    simp only [subL, List.mem_append] at hsub
    cases hsub with
    | inl h =>
      cases mem_subA_cases c sub h with
      | inl h2 => exact Or.inl (h2 ▸ List.mem_cons_self c cs)
      | inr h2 =>
        obtain ⟨p, hp, hsp⟩ := h2
        exact Or.inr ⟨p, by simp only [subL, List.mem_append]; exact Or.inl hp, hsp⟩
    | inr h =>
      cases mem_subL_cases cs sub h with
      | inl h2 => exact Or.inl (List.mem_cons_of_mem c h2)
      | inr h2 =>
        obtain ⟨p, hp, hsp⟩ := h2
        exact Or.inr ⟨p, by simp only [subL, List.mem_append]; exact Or.inr hp, hsp⟩

end

mutual

theorem annotateA_parents :
    ∀ (t : PyAst) (par : Option Nat) (fresh : Nat) (sub : AnnAst),
      sub ∈ subA (annotateA t par fresh).1 →
      ∀ c ∈ sub.fields, c.ann.parent = some sub.ann.id
  | .node k fs, par, fresh, sub => by
    intro hsub c hc
    simp only [annotateA, subA, List.mem_cons] at hsub
    cases hsub with
    | inl h =>
      subst h
      simp only [AnnAst.fields] at hc
      simp only [AnnAst.ann]
      exact annotateL_roots_parent fs (some fresh) (fresh + 1) c hc
    | inr h => exact annotateL_parents fs (some fresh) (fresh + 1) sub h c hc

theorem annotateL_parents :
    ∀ (ts : List PyAst) (par : Option Nat) (fresh : Nat) (sub : AnnAst),
      sub ∈ subL (annotateL ts par fresh).1 →
      ∀ c ∈ sub.fields, c.ann.parent = some sub.ann.id
  | [], _, _, sub => by simp [annotateL, subL]
  | t :: ts, par, fresh, sub => by
    intro hsub c hc
    simp only [annotateL, subL, List.mem_append] at hsub
    cases hsub with
    | inl h => exact annotateA_parents t par fresh sub h c hc
    | inr h => exact annotateL_parents ts par _ sub h c hc

end

theorem AnnAst.ann_node (a : Ann) (k : Kind) (fs : List AnnAst) :
    (AnnAst.node a k fs).ann = a := rfl

theorem AnnAst.kind_node (a : Ann) (k : Kind) (fs : List AnnAst) :
    (AnnAst.node a k fs).kind = k := rfl

theorem AnnAst.fields_node (a : Ann) (k : Kind) (fs : List AnnAst) :
    (AnnAst.node a k fs).fields = fs := rfl

theorem descSetA_node (a : Ann) (k : Kind) (fs : List AnnAst) :
    descSetA (.node a k fs) = descSetL fs := rfl

theorem foldl_children_eq_descSetL :
    ∀ (cs : List AnnAst) (s : Finset Nat),
      (∀ c ∈ cs, c.ann.children = descSetA c) →
      cs.foldl (fun s c => (insert c.ann.id s) ∪ c.ann.children) s =
        s ∪ descSetL cs
  | [], s => by simp [descSetL]
  | c :: cs, s => by
    intro h
    rw [List.foldl_cons, foldl_children_eq_descSetL cs _ (fun x hx => h x (List.mem_cons_of_mem c hx)),
      h c (List.mem_cons_self c cs), descSetL]
    ext x
    simp only [Finset.mem_union, Finset.mem_insert]
    tauto

mutual

theorem annotateA_children :
    ∀ (t : PyAst) (par : Option Nat) (fresh : Nat) (sub : AnnAst),
      sub ∈ subA (annotateA t par fresh).1 →
      sub.ann.children = descSetA sub
  | .node k fs, par, fresh, sub => by
    intro hsub
    simp only [annotateA, subA, List.mem_cons] at hsub
    cases hsub with
    | inl h =>
      subst h
      simp only [AnnAst.ann_node, descSetA_node]
      have hch : ∀ c ∈ (annotateL fs (some fresh) (fresh + 1)).1,
          c.ann.children = descSetA c :=
        fun c hc => annotateL_children fs (some fresh) (fresh + 1) c
          (mem_subL_self _ c hc)
      rw [foldl_children_eq_descSetL _ _ hch, Finset.empty_union]
    | inr h => exact annotateL_children fs (some fresh) (fresh + 1) sub h

theorem annotateL_children :
    ∀ (ts : List PyAst) (par : Option Nat) (fresh : Nat) (sub : AnnAst),
      sub ∈ subL (annotateL ts par fresh).1 →
      sub.ann.children = descSetA sub
  | [], _, _, sub => by simp [annotateL, subL]
  | t :: ts, par, fresh, sub => by
    intro hsub
    simp only [annotateL, subL, List.mem_append] at hsub
    cases hsub with
    | inl h => exact annotateA_children t par fresh sub h
    | inr h => exact annotateL_children ts par _ sub h

end

/-- C2: every tree produced by create_ast is a single-rooted annotated
tree: node identities are pairwise distinct, so no node object sits
below two different parents; the root carries no parent; every other
node's parent attribute names its immediate syntactic container; and
every node's children set equals the recursively recomputed union of
its immediate children and their children sets, the full set of its
descendants. -/
theorem annotated_tree_invariants :
    ∀ t : PyAst,
      (idsA (create_ast t)).Nodup ∧
      (create_ast t).ann.parent = none ∧
      (∀ sub, sub ∈ subA (create_ast t) →
        (∀ c ∈ sub.fields, c.ann.parent = some sub.ann.id) ∧
        sub.ann.children = descSetA sub) := by
  intro t
  refine ⟨?_, ?_, ?_⟩
  · rw [create_ast, annotateA_ids]
    exact List.nodup_range' 0 (sizeA t)
  · exact annotateA_ann_parent t none 0
  · intro sub hsub
    exact ⟨annotateA_parents t none 0 sub hsub,
      annotateA_children t none 0 sub hsub⟩

theorem annotated_tree_invariants_witness :
    (idsA (create_ast exampleSrc)).Nodup ∧
    (∀ c ∈ (create_ast exampleSrc).fields,
      c.ann.parent = some (create_ast exampleSrc).ann.id) ∧
    (create_ast exampleSrc).ann.children = descSetA (create_ast exampleSrc) := by
  have h := annotated_tree_invariants exampleSrc
  have h2 := h.2.2 (create_ast exampleSrc) (by decide)
  exact ⟨h.1, h2.1, h2.2⟩

theorem mem_of_head? {α : Type} (l : List α) (x : α) (h : l.head? = some x) :
    x ∈ l := by
  cases l with
  | nil => simp at h
  | cons a as =>
    simp only [List.head?_cons, Option.some.injEq] at h
    rw [← h]
    exact List.mem_cons_self a as

theorem mem_fields_of_mem_bodyOf (a : Ann) (k : Kind) (fs : List AnnAst)
    (x : AnnAst) (h : x ∈ (AnnAst.node a k fs).bodyOf) :
    x ∈ (AnnAst.node a k fs).fields := by
  cases k with
  | module => exact h
  | functionDef name => exact (List.drop_sublist 1 fs).subset h
  | classDef name => exact h
  | exprStmt => exact absurd h (List.not_mem_nil x)
  | assign => exact absurd h (List.not_mem_nil x)
  | strLit s => exact absurd h (List.not_mem_nil x)
  | nameExpr s => exact absurd h (List.not_mem_nil x)
  | numLit n => exact absurd h (List.not_mem_nil x)
  | passStmt => exact absurd h (List.not_mem_nil x)
  | argumentsNode => exact absurd h (List.not_mem_nil x)
  | ifStmt => exact absurd h (List.not_mem_nil x)

theorem is_docstring_eval (r n e d : AnnAst)
    (hs : isStrKind n.kind = true)
    (hp : n.ann.parent = some e.ann.id)
    (hfe : findA r e.ann.id = some e)
    (hek : e.kind = .exprStmt)
    (hep : e.ann.parent = some d.ann.id)
    (hfd : findA r d.ann.id = some d) :
    is_docstring r n =
      (isDefKind d.kind && !d.bodyOf.isEmpty &&
        (d.bodyOf.head?.map (fun x => x.ann.id) == some e.ann.id)) := by
  rw [is_docstring]
  split
  · split
    · rename_i hnone
      rw [hp] at hnone
      simp at hnone
    · rename_i pid hpid
      rw [hp] at hpid
      have hpe : pid = e.ann.id := (Option.some.inj hpid).symm
      subst hpe
      split
      · rename_i hfnone
        rw [hfe] at hfnone
        simp at hfnone
      · rename_i e2 hfe2
        rw [hfe] at hfe2
        have he2 : e2 = e := (Option.some.inj hfe2).symm
        subst he2
        split
        · split
          · rename_i hnone2
            rw [hep] at hnone2
            simp at hnone2
          · rename_i did hdid
            rw [hep] at hdid
            have hdd : did = d.ann.id := (Option.some.inj hdid).symm
            subst hdd
            split
            · rename_i hfnone2
              rw [hfd] at hfnone2
              simp at hfnone2
            · rename_i d2 hfd2
              rw [hfd] at hfd2
              have hd2 : d2 = d := (Option.some.inj hfd2).symm
              subst hd2
              rfl
        · rename_i hno
          exact absurd (by rw [hek]; rfl) hno
  · rename_i hno
    exact absurd hs hno

/-- C3: for every node of an annotated tree, is_docstring is true iff
the three conditions of the claim hold positionally in the tree: the
node is a bare string literal, its immediate container is an expression
statement, and that statement is the first statement of the body of a
function, class or module definition node; consequently a string
literal used as an assignment value, as a later statement, or inside a
nested block is never classified as a docstring. -/
theorem is_docstring_iff_position :
    ∀ (t : PyAst) (n : AnnAst), n ∈ subA (create_ast t) →
      is_docstring (create_ast t) n = docstringPos (create_ast t) n := by
  intro t n hn
  have hnodup : (idsA (create_ast t)).Nodup := by
    rw [create_ast, annotateA_ids]
    exact List.nodup_range' 0 (sizeA t)
  have hrootpar : (create_ast t).ann.parent = none := annotateA_ann_parent t none 0
  have hparents : ∀ sub ∈ subA (create_ast t), ∀ c ∈ sub.fields,
      c.ann.parent = some sub.ann.id :=
    fun sub hsub => annotateA_parents t none 0 sub hsub
  rw [Bool.eq_iff_iff]
  constructor
  · intro hd
    rw [is_docstring] at hd
    split at hd
    · rename_i hs
      split at hd
      · simp at hd
      · rename_i pid hp
        split at hd
        · simp at hd
        · rename_i e hfe
          split at hd
          · rename_i hek
            split at hd
            · simp at hd
            · rename_i did hep
              split at hd
              · simp at hd
              · rename_i d hfd
                rw [Bool.and_eq_true, Bool.and_eq_true] at hd
                obtain ⟨⟨hdk, hne⟩, hhead⟩ := hd
                have hhead2 : d.bodyOf.head?.map (fun x => x.ann.id) =
                    some e.ann.id := by simpa using hhead
                obtain ⟨h0, hh0, hh0id⟩ := Option.map_eq_some'.mp hhead2
                have hemem := findA_mem_id _ pid e hfe
                have hdmem := findA_mem_id _ did d hfd
                have hnf : n ∈ e.fields := by
                  cases mem_subA_cases _ n hn with
                  | inl h2 =>
                    rw [h2, hrootpar] at hp
                    simp at hp
                  | inr h2 =>
                    obtain ⟨p, hpmem, hnp⟩ := h2
                    have hp2 := hparents p hpmem n hnp
                    rw [hp] at hp2
                    have hpidp : pid = p.ann.id := Option.some.inj hp2
                    have hfp := findA_of_mem_nodup _ hnodup p hpmem
                    rw [← hpidp] at hfp
                    rw [hfe] at hfp
                    have hepeq : e = p := Option.some.inj hfp
                    rw [hepeq]
                    exact hnp
                have hh0f : h0 ∈ d.fields := by
                  cases d with
                  | node a2 k2 fs2 =>
                    exact mem_fields_of_mem_bodyOf _ _ _ _ (mem_of_head? _ _ hh0)
                have hh0mem : h0 ∈ subA (create_ast t) :=
                  mem_subA_trans _ d h0 hdmem.1 hh0f
                have hfh0 := findA_of_mem_nodup _ hnodup h0 hh0mem
                rw [hh0id, hemem.2, hfe] at hfh0
                have hh0e : h0 = e := (Option.some.inj hfh0).symm
                rw [docstringPos, List.any_eq_true]
                refine ⟨d, hdmem.1, ?_⟩
                rw [Bool.and_eq_true]
                refine ⟨hdk, ?_⟩
                rw [hh0, hh0e]
                show (e.kind == Kind.exprStmt && decide (n ∈ e.fields) &&
                  isStrKind n.kind) = true
                rw [Bool.and_eq_true, Bool.and_eq_true]
                exact ⟨⟨hek, by simpa using hnf⟩, hs⟩
          · simp at hd
    · simp at hd
  · intro hd
    rw [docstringPos, List.any_eq_true] at hd
    obtain ⟨d, hdmem, hdB⟩ := hd
    rw [Bool.and_eq_true] at hdB
    obtain ⟨hdk, hmatch⟩ := hdB
    cases hh : d.bodyOf.head? with
    | none => rw [hh] at hmatch; simp at hmatch
    | some e =>
      rw [hh] at hmatch
      have hmatch2 : (e.kind == Kind.exprStmt && decide (n ∈ e.fields) &&
          isStrKind n.kind) = true := hmatch
      rw [Bool.and_eq_true, Bool.and_eq_true] at hmatch2
      obtain ⟨⟨hek, hnf0⟩, hs⟩ := hmatch2
      have hnf : n ∈ e.fields := by simpa using hnf0
      have heB : e ∈ d.bodyOf := mem_of_head? _ _ hh
      have hef : e ∈ d.fields := by
        cases d with
        | node a2 k2 fs2 => exact mem_fields_of_mem_bodyOf _ _ _ _ heB
      have hemem : e ∈ subA (create_ast t) := mem_subA_trans _ d e hdmem hef
      have hnp : n.ann.parent = some e.ann.id := hparents e hemem n hnf
      have hfe : findA (create_ast t) e.ann.id = some e :=
        findA_of_mem_nodup _ hnodup e hemem
      have hep : e.ann.parent = some d.ann.id := hparents d hdmem e hef
      have hfd : findA (create_ast t) d.ann.id = some d :=
        findA_of_mem_nodup _ hnodup d hdmem
      have hekk : e.kind = Kind.exprStmt := by simpa using hek
      rw [is_docstring_eval (create_ast t) n e d hs hnp hfe hekk hep hfd]
      rw [Bool.and_eq_true, Bool.and_eq_true]
      refine ⟨⟨hdk, ?_⟩, ?_⟩
      · cases hb : d.bodyOf with
        | nil => rw [hb] at hh; simp at hh
        | cons x xs => simp [hb]
      · rw [hh]
        simp

theorem lookupObj_map_set_other (l : List (Nat × Obj)) (i : Nat) (o : Obj)
    (j : Nat) (hne : j ≠ i) :
    lookupObj (l.map (fun p => if p.1 = i then (i, o) else p)) j =
      lookupObj l j := by
  induction l with
  | nil => rfl
  | cons p ps ih =>
    rw [List.map_cons]
    by_cases hpi : p.1 = i
    · rw [if_pos hpi]
      have h1 : ¬ (i = j) := fun he => hne he.symm
      have h2 : ¬ (p.1 = j) := fun he => hne (he.symm.trans hpi)
      rw [lookupObj, lookupObj, if_neg h2]
      simp only [if_neg h1]
      exact ih
    · rw [if_neg hpi]
      rw [lookupObj, lookupObj]
      by_cases hpj : p.1 = j
      · rw [if_pos hpj, if_pos hpj]
      · rw [if_neg hpj, if_neg hpj]
        exact ih

theorem lookupObj_map_set_self (l : List (Nat × Obj)) (i : Nat) (o : Obj) :
    lookupObj (l.map (fun p => if p.1 = i then (i, o) else p)) i =
      (lookupObj l i).map (fun _ => o) := by
  induction l with
  | nil => rfl
  | cons p ps ih =>
    rw [List.map_cons]
    by_cases hpi : p.1 = i
    · rw [if_pos hpi, lookupObj, lookupObj, if_pos hpi]
      simp
    · rw [if_neg hpi, lookupObj, lookupObj]
      simp only [if_neg hpi]
      exact ih

theorem Heap.find_set_other (h : Heap) (i : Nat) (o : Obj) (j : Nat)
    (hne : j ≠ i) : (h.set i o).find j = h.find j := by
  cases h with
  | mk objs nx =>
    simp only [Heap.set, Heap.find]
    exact lookupObj_map_set_other objs i o j hne

theorem Heap.find_set_self (h : Heap) (i : Nat) (o o0 : Obj)
    (hf : h.find i = some o0) : (h.set i o).find i = some o := by
  cases h with
  | mk objs nx =>
    simp only [Heap.set, Heap.find] at hf ⊢
    rw [lookupObj_map_set_self, hf]
    rfl

theorem Heap.find_set_none_self (h : Heap) (i : Nat) (o : Obj)
    (hf : h.find i = none) : (h.set i o).find i = none := by
  cases h with
  | mk objs nx =>
    simp only [Heap.set, Heap.find] at hf ⊢
    rw [lookupObj_map_set_self, hf]
    rfl

theorem Heap.find_alloc_self (h : Heap) (o : Obj) :
    (h.alloc o).1.find h.next = some o := by
  cases h with
  | mk objs nx =>
    simp [Heap.alloc, Heap.find, lookupObj]

theorem Heap.find_alloc_other (h : Heap) (o : Obj) (j : Nat)
    (hne : j ≠ h.next) : (h.alloc o).1.find j = h.find j := by
  cases h with
  | mk objs nx =>
    simp only [Heap.alloc, Heap.find]
    rw [lookupObj, if_neg (fun he => hne he.symm)]

theorem Heap.wfb_set (h : Heap) (i : Nat) (o : Obj) (hwf : h.wfb = true) :
    (h.set i o).wfb = true := by
  cases h with
  | mk objs nx =>
    simp only [Heap.wfb, Heap.set, List.all_map, List.all_eq_true] at hwf ⊢
    intro p hp
    have h2 := hwf p hp
    by_cases hpi : p.1 = i
    · simp only [Function.comp, if_pos hpi]
      simp only [decide_eq_true_eq] at h2 ⊢
      omega
    · simp only [Function.comp, if_neg hpi]
      exact h2

theorem Heap.wfb_alloc (h : Heap) (o : Obj) (hwf : h.wfb = true) :
    (h.alloc o).1.wfb = true := by
  cases h with
  | mk objs nx =>
    simp only [Heap.wfb, Heap.alloc, List.all_cons, List.all_eq_true,
      Bool.and_eq_true] at hwf ⊢
    constructor
    · simp
    · intro p hp
      have h2 := hwf p hp
      simp only [decide_eq_true_eq] at h2 ⊢
      omega

theorem lookupObj_some_key (l : List (Nat × Obj)) (i : Nat) (o : Obj)
    (hf : lookupObj l i = some o) : ∃ p ∈ l, p.1 = i := by
  induction l with
  | nil => simp [lookupObj] at hf
  | cons p ps ih =>
    rw [lookupObj] at hf
    by_cases hpi : p.1 = i
    · exact ⟨p, List.mem_cons_self p ps, hpi⟩
    · rw [if_neg hpi] at hf
      obtain ⟨p2, hp2, hk⟩ := ih hf
      exact ⟨p2, List.mem_cons_of_mem p hp2, hk⟩

theorem Heap.find_some_lt (h : Heap) (i : Nat) (o : Obj)
    (hwf : h.wfb = true) (hf : h.find i = some o) : i < h.next := by
  cases h with
  | mk objs nx =>
    simp only [Heap.wfb, List.all_eq_true] at hwf
    simp only [Heap.find] at hf
    obtain ⟨p, hp, hk⟩ := lookupObj_some_key objs i o hf
    have h2 := hwf p hp
    simp only [decide_eq_true_eq] at h2
    simpa [hk] using h2

theorem setFields_frame (h : Heap) (i : Nat) (fs2 : List Nat) (h2 : Heap)
    (hs : setFields h i fs2 = some h2) :
    h2.next = h.next ∧ (h.wfb = true → h2.wfb = true) ∧
    (∀ j, (h2.find j).map (fun o => (o.stable, o.childrenAttr)) =
      (h.find j).map (fun o => (o.stable, o.childrenAttr))) := by
  rw [setFields] at hs
  split at hs
  · rename_i o ho
    have hh2 : h2 = h.set i { o with fields := fs2 } := (Option.some.inj hs).symm
    subst hh2
    refine ⟨rfl, fun hwf => Heap.wfb_set h i _ hwf, ?_⟩
    intro j
    by_cases hji : j = i
    · subst hji
      rw [Heap.find_set_self h j _ o ho, ho]
      rfl
    · rw [Heap.find_set_other h i _ j hji]
  · simp at hs

theorem addToParentChildren_frame (h : Heap) (par : Option Nat) (nid1 : Nat)
    (h2 : Heap) (hadd : addToParentChildren h par nid1 = some h2) :
    h2.next = h.next ∧ (h.wfb = true → h2.wfb = true) ∧
    (∀ j, (h2.find j).map (fun o => (o.stable, o.fields)) =
      (h.find j).map (fun o => (o.stable, o.fields))) := by
  unfold addToParentChildren at hadd
  split at hadd
  · have hh : h = h2 := Option.some.inj hadd
    subst hh
    exact ⟨rfl, fun hwf => hwf, fun j => rfl⟩
  · rename_i p
    split at hadd
    · rename_i pobj nobj hp hn
      split at hadd
      · rename_i pc nc hpc hnc
        have hh2 : h2 = h.set p
            { pobj with childrenAttr := some ((insert nid1 pc) ∪ nc) } :=
          (Option.some.inj hadd).symm
        subst hh2
        refine ⟨rfl, fun hwf => Heap.wfb_set h p _ hwf, ?_⟩
        intro j
        by_cases hjp : j = p
        · subst hjp
          rw [Heap.find_set_self h j _ pobj hp, hp]
          rfl
        · rw [Heap.find_set_other h p _ j hjp]
      · simp at hadd
    · simp at hadd

theorem heapFrame_comp (h hm h2 : Heap) (f1 : HeapFrame h hm)
    (f2 : HeapFrame hm h2) : HeapFrame h h2 := by
  obtain ⟨hw1, hn1, hc1, hd1, he1⟩ := f1
  obtain ⟨hw2, hn2, hc2, hd2, he2⟩ := f2
  refine ⟨hw2, hn1.trans hn2, ?_, ?_, ?_⟩
  · intro i o hi ho
    obtain ⟨o2, ho2, hk, hp⟩ := hc1 i o hi ho
    obtain ⟨o3, ho3, hk2, hp2⟩ := hc2 i o2 (lt_of_lt_of_le hi hn1) ho2
    refine ⟨o3, ho3, hk2.trans hk, ?_⟩
    intro hps
    have hpeq := hp hps
    have hps2 : o2.parentAttr.isSome = true := by rw [hpeq]; exact hps
    exact (hp2 hps2).trans hpeq
  · intro i hi hno
    exact hd2 i (lt_of_lt_of_le hi hn1) (hd1 i hi hno)
  · intro i o2 hi ho2
    by_cases him : hm.next ≤ i
    · exact he2 i o2 him ho2
    · push_neg at him
      cases hmf : hm.find i with
      | none => rw [hd2 i him hmf] at ho2; simp at ho2
      | some om =>
        have hlom : om.lineno = none := he1 i om hi hmf
        obtain ⟨o3, ho3, hk3, hp3⟩ := hc2 i om him hmf
        rw [ho3] at ho2
        have ho23 : o3 = o2 := Option.some.inj ho2
        have hl3 : o3.lineno = om.lineno := congrArg (fun t => t.2.1) hk3
        rw [← ho23, hl3, hlom]

theorem heapFrame_of_stable (h h2 : Heap) (hwf : h.wfb = true)
    (hnext : h2.next = h.next) (hwf2 : h2.wfb = true)
    (hproj : ∀ j, (h2.find j).map Obj.stable = (h.find j).map Obj.stable) :
    HeapFrame h h2 := by
  refine ⟨hwf2, hnext.ge, ?_, ?_, ?_⟩
  · intro i o hi ho
    have hp := hproj i
    rw [ho] at hp
    simp only [Option.map_some'] at hp
    obtain ⟨o2, ho2, hprj⟩ := Option.map_eq_some'.mp hp
    have h1 : o2.core = o.core := congrArg (fun q => q.1) hprj
    have h3p : o2.parentAttr = o.parentAttr := congrArg (fun q => q.2) hprj
    exact ⟨o2, ho2, h1, fun _ => h3p⟩
  · intro i hi hno
    have hp := hproj i
    rw [hno] at hp
    simp only [Option.map_none'] at hp
    exact Option.map_eq_none'.mp hp
  · intro i o2 hi ho2
    have hp := hproj i
    rw [ho2] at hp
    simp only [Option.map_some'] at hp
    obtain ⟨o, ho, hprj⟩ := Option.map_eq_some'.mp hp.symm
    have hlt := Heap.find_some_lt h i o hwf ho
    omega

theorem proj_pair_fst {α β γ : Type} (f : α → β) (g : α → γ) (x y : Option α)
    (h : x.map (fun o => (f o, g o)) = y.map (fun o => (f o, g o))) :
    x.map f = y.map f := by
  cases x with
  | none =>
    cases y with
    | none => rfl
    | some o => simp at h
  | some o =>
    cases y with
    | none => simp at h
    | some o2 =>
      simp only [Option.map_some', Option.some.injEq, Prod.mk.injEq] at h ⊢
      exact h.1

theorem setFields_heapFrame (h : Heap) (i : Nat) (fs2 : List Nat) (h2 : Heap)
    (hwf : h.wfb = true) (hs : setFields h i fs2 = some h2) :
    HeapFrame h h2 := by
  obtain ⟨hnext, hwfp, hproj⟩ := setFields_frame h i fs2 h2 hs
  exact heapFrame_of_stable h h2 hwf hnext (hwfp hwf)
    (fun j => proj_pair_fst Obj.stable (fun o => o.childrenAttr) _ _ (hproj j))

theorem addToParentChildren_heapFrame (h : Heap) (par : Option Nat)
    (nid1 : Nat) (h2 : Heap) (hwf : h.wfb = true)
    (hadd : addToParentChildren h par nid1 = some h2) : HeapFrame h h2 := by
  obtain ⟨hnext, hwfp, hproj⟩ := addToParentChildren_frame h par nid1 h2 hadd
  exact heapFrame_of_stable h h2 hwf hnext (hwfp hwf)
    (fun j => proj_pair_fst Obj.stable (fun o => o.fields) _ _ (hproj j))

theorem annotate_set_heapFrame_clone (h : Heap) (cln obj2 : Obj)
    (hwf : h.wfb = true) (hl : obj2.lineno = none) :
    HeapFrame h ((h.alloc cln).1.set h.next obj2) := by
  have hwfA : ((h.alloc cln).1.set h.next obj2).wfb = true :=
    Heap.wfb_set _ _ _ (Heap.wfb_alloc h cln hwf)
  have hfs : ((h.alloc cln).1.set h.next obj2).find h.next = some obj2 :=
    Heap.find_set_self _ _ _ cln (Heap.find_alloc_self h cln)
  have hother : ∀ j, j ≠ h.next →
      ((h.alloc cln).1.set h.next obj2).find j = h.find j := by
    intro j hj
    rw [Heap.find_set_other _ _ _ j hj, Heap.find_alloc_other h cln j hj]
  refine ⟨hwfA, ?_, ?_, ?_, ?_⟩
  · show h.next ≤ (h.alloc cln).1.next
    simp [Heap.alloc]
  · intro i o hi ho
    have hne : i ≠ h.next := by omega
    exact ⟨o, by rw [hother i hne]; exact ho, rfl, fun _ => rfl⟩
  · intro i hi hno
    have hne : i ≠ h.next := by omega
    rw [hother i hne]
    exact hno
  · intro i o2 hi ho2
    by_cases hie : i = h.next
    · subst hie
      rw [hfs] at ho2
      have : obj2 = o2 := Option.some.inj ho2
      rw [← this, hl]
    · rw [hother i hie] at ho2
      have := Heap.find_some_lt h i o2 hwf ho2
      omega

theorem annotate_set_heapFrame_keep (h : Heap) (nid : Nat) (obj0 obj2 : Obj)
    (hwf : h.wfb = true) (hfind : h.find nid = some obj0)
    (hpa : ¬ obj0.parentAttr.isSome = true)
    (hk : obj2.core = obj0.core) :
    HeapFrame h (h.set nid obj2) := by
  have hnid : nid < h.next := Heap.find_some_lt h nid obj0 hwf hfind
  refine ⟨Heap.wfb_set h nid obj2 hwf, le_refl _, ?_, ?_, ?_⟩
  · intro i o hi ho
    by_cases hie : i = nid
    · subst hie
      rw [hfind] at ho
      have hoo : obj0 = o := Option.some.inj ho
      refine ⟨obj2, Heap.find_set_self h i obj2 obj0 hfind, ?_, ?_⟩
      · rw [hk, hoo]
      · intro hps
        rw [← hoo] at hps
        exact absurd hps hpa
    · exact ⟨o, by rw [Heap.find_set_other h nid obj2 i hie]; exact ho,
        rfl, fun _ => rfl⟩
  · intro i hi hno
    by_cases hie : i = nid
    · subst hie
      rw [hfind] at hno
      simp at hno
    · rw [Heap.find_set_other h nid obj2 i hie]
      exact hno
  · intro i o2 hi ho2
    have hie : i ≠ nid := by omega
    rw [Heap.find_set_other h nid obj2 i hie] at ho2
    have := Heap.find_some_lt h i o2 hwf ho2
    omega

mutual

theorem visitH_frame :
    ∀ (fuel : Nat) (h : Heap) (par : Option Nat) (nid : Nat) (h2 : Heap)
      (r : Nat), h.wfb = true → visitH fuel h par nid = some (h2, r) →
      HeapFrame h h2
  | 0, h, par, nid, h2, r => by
    intro hwf hv
    simp [visitH] at hv
  | fuel + 1, h, par, nid, h2, r => by
    intro hwf hv
    simp only [visitH] at hv
    split at hv
    · simp at hv
    · rename_i obj0 hfind
      by_cases hpa : obj0.parentAttr.isSome = true
      · have hceq : cloneIfAnnotated h nid obj0 =
            ((h.alloc { obj0 with lineno := none }).1, h.next,
              { obj0 with lineno := none }) := by
          rw [cloneIfAnnotated, if_pos hpa]
        rw [hceq] at hv
        split at hv
        · simp at hv
        · rename_i h3 newFields hvf
          split at hv
          · simp at hv
          · rename_i h4 hsf
            split at hv
            · simp at hv
            · rename_i h5 hadd
              have h6 := Option.some.inj hv
              have hh5 : h5 = h2 := congrArg Prod.fst h6
              subst hh5
              have hF1 := annotate_set_heapFrame_clone h
                { obj0 with lineno := none }
                { obj0 with
                    lineno := none,
                    parentAttr := some par,
                    childrenAttr := some (∅ : Finset Nat) } hwf rfl
              have hF2 := visitFieldsH_frame fuel _ _ _ h3 newFields hF1.1 hvf
              have hF3 := setFields_heapFrame h3 _ newFields h4 hF2.1 hsf
              have hF4 := addToParentChildren_heapFrame h4 par _ h5 hF3.1 hadd
              exact heapFrame_comp _ _ _
                (heapFrame_comp _ _ _ (heapFrame_comp _ _ _ hF1 hF2) hF3) hF4
      · have hceq : cloneIfAnnotated h nid obj0 = (h, nid, obj0) := by
          rw [cloneIfAnnotated, if_neg hpa]
        rw [hceq] at hv
        split at hv
        · simp at hv
        · rename_i h3 newFields hvf
          split at hv
          · simp at hv
          · rename_i h4 hsf
            split at hv
            · simp at hv
            · rename_i h5 hadd
              have h6 := Option.some.inj hv
              have hh5 : h5 = h2 := congrArg Prod.fst h6
              subst hh5
              have hF1 := annotate_set_heapFrame_keep h nid obj0
                { obj0 with
                    parentAttr := some par,
                    childrenAttr := some (∅ : Finset Nat) } hwf hfind hpa rfl
              have hF2 := visitFieldsH_frame fuel _ _ _ h3 newFields hF1.1 hvf
              have hF3 := setFields_heapFrame h3 _ newFields h4 hF2.1 hsf
              have hF4 := addToParentChildren_heapFrame h4 par _ h5 hF3.1 hadd
              exact heapFrame_comp _ _ _
                (heapFrame_comp _ _ _ (heapFrame_comp _ _ _ hF1 hF2) hF3) hF4

theorem visitFieldsH_frame :
    ∀ (fuel : Nat) (h : Heap) (p : Nat) (cs : List Nat) (h2 : Heap)
      (cs2 : List Nat), h.wfb = true →
      visitFieldsH fuel h p cs = some (h2, cs2) → HeapFrame h h2
  | 0, h, p, cs, h2, cs2 => by
    intro hwf hv
    simp [visitFieldsH] at hv
  | fuel + 1, h, p, [], h2, cs2 => by
    intro hwf hv
    simp only [visitFieldsH] at hv
    have h6 := Option.some.inj hv
    have hh : h = h2 := congrArg Prod.fst h6
    subst hh
    refine ⟨hwf, le_refl _, ?_, ?_, ?_⟩
    · exact fun i o hi ho => ⟨o, ho, rfl, fun _ => rfl⟩
    · exact fun i hi hno => hno
    · intro i o2 hi ho2
      have := Heap.find_some_lt h i o2 hwf ho2
      omega
  | fuel + 1, h, p, c :: cs, h2, cs2 => by
    intro hwf hv
    simp only [visitFieldsH] at hv
    split at hv
    · simp at hv
    · rename_i hm c2 hvc
      split at hv
      · simp at hv
      · rename_i hf2 cs2' hvrest
        have h6 := Option.some.inj hv
        have hh : hf2 = h2 := congrArg Prod.fst h6
        subst hh
        have F1 := visitH_frame fuel h (some p) c hm c2 hwf hvc
        have F2 := visitFieldsH_frame fuel hm p cs _ cs2' F1.1 hvrest
        exact heapFrame_comp _ _ _ F1 F2

end

theorem carry_setFields_addToParent (h3 h4 h5 : Heap) (par : Option Nat)
    (nid1 : Nat) (newFields : List Nat) (i : Nat) (o2 : Obj)
    (hsf : setFields h3 nid1 newFields = some h4)
    (hadd : addToParentChildren h4 par nid1 = some h5)
    (ho2 : h3.find i = some o2) :
    ∃ o5, h5.find i = some o5 ∧ o5.core = o2.core ∧
      o5.parentAttr = o2.parentAttr := by
  obtain ⟨hn3, hw3, hproj3⟩ := setFields_frame h3 nid1 newFields h4 hsf
  obtain ⟨hn4, hw4, hproj4⟩ := addToParentChildren_frame h4 par nid1 h5 hadd
  have hp3 := proj_pair_fst Obj.stable (fun o => o.childrenAttr) _ _ (hproj3 i)
  have hp4 := proj_pair_fst Obj.stable (fun o => o.fields) _ _ (hproj4 i)
  have hchain : (h5.find i).map Obj.stable = some o2.stable := by
    rw [hp4, hp3, ho2]
    rfl
  obtain ⟨o5, ho5, hprj⟩ := Option.map_eq_some'.mp hchain
  exact ⟨o5, ho5, congrArg (fun t => t.1) hprj, congrArg (fun t => t.2) hprj⟩

/-- C6 (corrected): when the traversal meets a node object that was
already annotated (the parser reused the same node object at another
tree position), it shallow-clones it before annotating: the node
standing at this position afterwards is a freshly allocated object,
distinct from the reused one, of the same constructor kind, annotated
with the current ancestor as parent; of the clone's cached
source-location attributes only lineno is deleted, while col_offset,
end_lineno and end_col_offset are the ones the shallow copy took over
from the reused node's old tree position and remain on the clone; the
reused original keeps all its attributes. -/
theorem visit_clones_already_annotated
    (fuel : Nat) (h : Heap) (par : Option Nat) (nid : Nat) (obj0 : Obj)
    (q : Option Nat) (h2 : Heap) (r : Nat)
    (hwf : h.wfb = true) (hfind : h.find nid = some obj0)
    (hann : obj0.parentAttr = some q)
    (hv : visitH fuel h par nid = some (h2, r)) :
    r = h.next ∧ r ≠ nid ∧
    (∃ o2, h2.find r = some o2 ∧ o2.lineno = none ∧ o2.kind = obj0.kind ∧
      o2.col_offset = obj0.col_offset ∧ o2.end_lineno = obj0.end_lineno ∧
      o2.end_col_offset = obj0.end_col_offset ∧ o2.parentAttr = some par) ∧
    (∃ o3, h2.find nid = some o3 ∧ o3.kind = obj0.kind ∧
      o3.lineno = obj0.lineno ∧ o3.col_offset = obj0.col_offset ∧
      o3.end_lineno = obj0.end_lineno ∧
      o3.end_col_offset = obj0.end_col_offset ∧ o3.parentAttr = some q) := by
  cases fuel with
  | zero => simp [visitH] at hv
  | succ fuel =>
    have hpa : obj0.parentAttr.isSome = true := by rw [hann]; rfl
    have hnid : nid < h.next := Heap.find_some_lt h nid obj0 hwf hfind
    simp only [visitH] at hv
    split at hv
    · simp at hv
    · rename_i obj0' hfind'
      rw [hfind] at hfind'
      have hoo : obj0' = obj0 := (Option.some.inj hfind').symm
      rw [hoo] at hv
      have hceq : cloneIfAnnotated h nid obj0 =
          ((h.alloc { obj0 with lineno := none }).1, h.next,
            { obj0 with lineno := none }) := by
        rw [cloneIfAnnotated, if_pos hpa]
      rw [hceq] at hv
      split at hv
      · simp at hv
      · rename_i h3 newFields hvf
        split at hv
        · simp at hv
        · rename_i h4 hsf
          split at hv
          · simp at hv
          · rename_i h5 hadd
            have h6 := Option.some.inj hv
            have hh5 : h5 = h2 := congrArg Prod.fst h6
            have hrr : h.next = r := congrArg Prod.snd h6
            rw [hh5] at hadd
            have hAwfb : ((h.alloc { obj0 with lineno := none }).1.set h.next
                { obj0 with
                    lineno := none,
                    parentAttr := some par,
                    childrenAttr := some (∅ : Finset Nat) }).wfb = true :=
              Heap.wfb_set _ _ _ (Heap.wfb_alloc h _ hwf)
            have hAfind : ((h.alloc { obj0 with lineno := none }).1.set h.next
                { obj0 with
                    lineno := none,
                    parentAttr := some par,
                    childrenAttr := some (∅ : Finset Nat) }).find h.next =
                some { obj0 with
                    lineno := none,
                    parentAttr := some par,
                    childrenAttr := some (∅ : Finset Nat) } :=
              Heap.find_set_self _ _ _ _ (Heap.find_alloc_self h _)
            have hAfindnid : ((h.alloc { obj0 with lineno := none }).1.set h.next
                { obj0 with
                    lineno := none,
                    parentAttr := some par,
                    childrenAttr := some (∅ : Finset Nat) }).find nid =
                some obj0 := by
              rw [Heap.find_set_other _ _ _ nid (by omega),
                Heap.find_alloc_other h _ nid (by omega)]
              exact hfind
            have hF2 := visitFieldsH_frame fuel _ _ _ h3 newFields hAwfb hvf
            refine ⟨hrr.symm, by omega, ?_, ?_⟩
            · obtain ⟨o2, ho2, hk2, hp2⟩ :=
                hF2.2.2.1 h.next _ (by simp [Heap.alloc, Heap.set]) hAfind
              obtain ⟨o5, ho5, hk5, hp5⟩ :=
                carry_setFields_addToParent h3 h4 h2 par _ newFields h.next o2
                  hsf hadd ho2
              have hcal := hk5.trans hk2
              refine ⟨o5, by rw [← hrr]; exact ho5, ?_, ?_, ?_, ?_, ?_, ?_⟩
              · exact congrArg (fun t => t.2.1) hcal
              · exact congrArg (fun t => t.1) hcal
              · exact congrArg (fun t => t.2.2.1) hcal
              · exact congrArg (fun t => t.2.2.2.1) hcal
              · exact congrArg (fun t => t.2.2.2.2) hcal
              · rw [hp5, hp2 rfl]
            · obtain ⟨o3, ho3, hk3, hp3⟩ :=
                hF2.2.2.1 nid obj0 (by simp [Heap.alloc, Heap.set]; omega)
                  hAfindnid
              obtain ⟨o5, ho5, hk5, hp5⟩ :=
                carry_setFields_addToParent h3 h4 h2 par _ newFields nid o3
                  hsf hadd ho3
              have hcal := hk5.trans hk3
              refine ⟨o5, ho5, ?_, ?_, ?_, ?_, ?_, ?_⟩
              · exact congrArg (fun t => t.1) hcal
              · exact congrArg (fun t => t.2.1) hcal
              · exact congrArg (fun t => t.2.2.1) hcal
              · exact congrArg (fun t => t.2.2.2.1) hcal
              · exact congrArg (fun t => t.2.2.2.2) hcal
              · rw [hp5, hp3 hpa, hann]

/-- C6 counterexample to the claim as stated: the clone branch of visit
deletes only the lineno attribute.  Visiting an already-annotated
string-literal node whose old tree position cached lineno 3 and
col_offset 5 yields a clone whose lineno is gone but whose col_offset
is still 5, so the clone does carry a stale cached source-location
attribute from its old tree position. -/
theorem visit_clone_keeps_stale_col_offset :
    visitH 2
        (⟨[(0, ⟨Kind.strLit "doc", [], some none, some ∅, some 3, some 5,
          some 3, some 9⟩)], 1⟩ : Heap) none 0 =
      some (⟨[(1, ⟨Kind.strLit "doc", [], some none, some ∅, none, some 5,
          some 3, some 9⟩),
        (0, ⟨Kind.strLit "doc", [], some none, some ∅, some 3, some 5,
          some 3, some 9⟩)], 2⟩, 1) ∧
    (⟨[(1, ⟨Kind.strLit "doc", [], some none, some ∅, none, some 5, some 3,
          some 9⟩),
        (0, ⟨Kind.strLit "doc", [], some none, some ∅, some 3, some 5,
          some 3, some 9⟩)], 2⟩ : Heap).find 1 =
      some ⟨Kind.strLit "doc", [], some none, some ∅, none, some 5, some 3,
        some 9⟩ ∧
    (⟨Kind.strLit "doc", [], some none, some ∅, none, some 5, some 3,
      some 9⟩ : Obj).lineno = none ∧
    (⟨Kind.strLit "doc", [], some none, some ∅, none, some 5, some 3,
      some 9⟩ : Obj).col_offset = some 5 ∧
    ¬ (⟨Kind.strLit "doc", [], some none, some ∅, none, some 5, some 3,
      some 9⟩ : Obj).col_offset = none := by
  decide

theorem visit_clones_already_annotated_witness :
    (1 : Nat) =
      (⟨[(0, ⟨Kind.strLit "doc", [], some none, some ∅, some 3, some 5,
        some 3, some 9⟩)], 1⟩ : Heap).next ∧
    (1 : Nat) ≠ 0 ∧
    (∃ o2, (⟨[(1, ⟨Kind.strLit "doc", [], some none, some ∅, none, some 5,
          some 3, some 9⟩),
        (0, ⟨Kind.strLit "doc", [], some none, some ∅, some 3, some 5,
          some 3, some 9⟩)], 2⟩ : Heap).find 1 =
        some o2 ∧ o2.lineno = none ∧
        o2.kind = (⟨Kind.strLit "doc", [], some none, some ∅, some 3, some 5,
          some 3, some 9⟩ : Obj).kind ∧
        o2.col_offset = (⟨Kind.strLit "doc", [], some none, some ∅, some 3,
          some 5, some 3, some 9⟩ : Obj).col_offset ∧
        o2.end_lineno = (⟨Kind.strLit "doc", [], some none, some ∅, some 3,
          some 5, some 3, some 9⟩ : Obj).end_lineno ∧
        o2.end_col_offset = (⟨Kind.strLit "doc", [], some none, some ∅,
          some 3, some 5, some 3, some 9⟩ : Obj).end_col_offset ∧
        o2.parentAttr = some none) ∧
    (∃ o3, (⟨[(1, ⟨Kind.strLit "doc", [], some none, some ∅, none, some 5,
          some 3, some 9⟩),
        (0, ⟨Kind.strLit "doc", [], some none, some ∅, some 3, some 5,
          some 3, some 9⟩)], 2⟩ : Heap).find 0 =
        some o3 ∧
        o3.kind = (⟨Kind.strLit "doc", [], some none, some ∅, some 3, some 5,
          some 3, some 9⟩ : Obj).kind ∧
        o3.lineno = (⟨Kind.strLit "doc", [], some none, some ∅, some 3,
          some 5, some 3, some 9⟩ : Obj).lineno ∧
        o3.col_offset = (⟨Kind.strLit "doc", [], some none, some ∅, some 3,
          some 5, some 3, some 9⟩ : Obj).col_offset ∧
        o3.end_lineno = (⟨Kind.strLit "doc", [], some none, some ∅, some 3,
          some 5, some 3, some 9⟩ : Obj).end_lineno ∧
        o3.end_col_offset = (⟨Kind.strLit "doc", [], some none, some ∅,
          some 3, some 5, some 3, some 9⟩ : Obj).end_col_offset ∧
        o3.parentAttr = some none) := by
  exact visit_clones_already_annotated 2
    ⟨[(0, ⟨Kind.strLit "doc", [], some none, some ∅, some 3, some 5, some 3,
      some 9⟩)], 1⟩ none 0
    ⟨Kind.strLit "doc", [], some none, some ∅, some 3, some 5, some 3,
      some 9⟩ none
    ⟨[(1, ⟨Kind.strLit "doc", [], some none, some ∅, none, some 5, some 3,
        some 9⟩),
      (0, ⟨Kind.strLit "doc", [], some none, some ∅, some 3, some 5, some 3,
        some 9⟩)], 2⟩ 1
    (by decide) (by decide) (by decide) (by decide)

theorem is_docstring_iff_position_witness :
    is_docstring (create_ast exampleSrc)
        (.node ⟨2, some 1, ∅⟩ (.strLit "doc") []) =
      docstringPos (create_ast exampleSrc)
        (.node ⟨2, some 1, ∅⟩ (.strLit "doc") []) ∧
    is_docstring (create_ast exampleSrc)
        (.node ⟨2, some 1, ∅⟩ (.strLit "doc") []) = true := by
  refine ⟨is_docstring_iff_position exampleSrc _ (by decide), by decide⟩

end Pynguin
